import Mathlib

/-!
# Verification of rust-text: binary font parsing and rectangle packing

This file gives a shallow embedding of the core algorithms of the
`rust-text` repository and proves (or refutes) the spec claims about them.

* `src/parse.rs` — fixed-width big/little-endian integer, array and record
  parsers over a byte cursor (`&mut &[u8]`, rendered here as explicit state
  passing `Bytes → Option α × Bytes`; on the error path the cursor position
  that is returned is the caller's original one, because the Rust code only
  writes the advanced position back on the success path).
* `src/ttf.rs` — the TrueType file parser (offset subtable, table directory,
  `head` table with magic-number gate, `name` table with per-platform string
  decoding).  Rust code here can `Ok`, `Err(())`, or panic (`.unwrap()` on a
  parse result, out-of-range slicing); the three outcomes are kept apart by
  the `POut` type.
* `src/pack.rs` + `src/lib.rs` — the growable binary-tree rectangle packer
  `bin_pack`, instantiated as `pack_glyphs` does (size selector, descending
  max-dimension ordering, key selector).

Machine integers are modelled as `Nat` (bytes are `Nat`s `< 256`), signed
values as `Int` obtained by two's-complement reinterpretation.
-/

set_option maxHeartbeats 1000000
set_option maxRecDepth 100000

namespace RustText

/-! ## Byte sequences and endianness -/

/-- A byte sequence (`&[u8]`); elements are byte values, `< 256` for real inputs. -/
abbrev Bytes := List Nat

/-- Little-endian value of a byte list: `leVal [b0, b1, …] = b0 + 256·b1 + …`. -/
def leVal : Bytes → Nat
  | [] => 0
  | b :: rest => b + 256 * leVal rest

/-- Big-endian value of a byte list (first byte is most significant). -/
def beVal (bs : Bytes) : Nat := leVal bs.reverse

/-- The `k` little-endian base-256 digits of `v`.  This is the reference
little-endian encoder of the spec's round-trip property. -/
def toBytesLe : Nat → Nat → Bytes
  | 0, _ => []
  | k + 1, v => v % 256 :: toBytesLe k (v / 256)

/-- Reference big-endian encoder: the base-256 digits, most significant first. -/
def toBytesBe (k v : Nat) : Bytes := (toBytesLe k v).reverse

/-- The accumulator after the loop `for i in 0..k { result |= bytes[i] << (i*8) }`
of `parseable_integral` (parse.rs:28–31 and 44–47); the bounds check guarantees
`i` is always in range, so the `getD` default is never taken. -/
def accumLe (k : Nat) (bytes : Bytes) : Nat :=
  (List.range k).foldl (fun result i => result ||| (bytes.getD i 0 <<< (i * 8))) 0

/-- Model of `<$t>::from_be` on the little-endian host this crate targets
(the Win32 bindings are x86-only): reinterpret the value's `k` memory bytes
(least significant first) in big-endian order, i.e. swap the bytes. -/
def from_be (k v : Nat) : Nat := beVal (toBytesLe k v)

/-- Model of `<$t>::from_le` on a little-endian host: the identity. -/
def from_le (_k v : Nat) : Nat := v

/-! ## The integral parsers (parse.rs `parseable_integral`)

A Rust `fn parse_xx(input: &mut &[u8]) -> ParseResult<T>` is rendered as a
function `Bytes → Option T × Bytes` returning the result and the final cursor.
On failure the original cursor is returned: the write-back `*input = bytes`
only happens on the success path. -/

/-- `parse_be` for a `k`-byte unsigned integer (parse.rs:36–50): bounds check,
little-endian accumulation loop, write-back, `from_be`. -/
def parse_be_uint (k : Nat) (input : Bytes) : Option Nat × Bytes :=
  if input.length < k then (none, input)
  else (some (from_be k (accumLe k input)), input.drop k)

/-- `parse_le` for a `k`-byte unsigned integer (parse.rs:20–34). -/
def parse_le_uint (k : Nat) (input : Bytes) : Option Nat × Bytes :=
  if input.length < k then (none, input)
  else (some (from_le k (accumLe k input)), input.drop k)

/-- Two's-complement reinterpretation of a `k`-byte unsigned value, modelling
that the signed instantiations of `parseable_integral` run the same loop on
the same bit pattern and the result is read back as a signed integer. -/
def toSigned (k v : Nat) : Int :=
  if v < 2 ^ (8 * k - 1) then (v : Int) else (v : Int) - ((2 ^ (8 * k) : Nat) : Int)

/-- Two's-complement representation of a signed value in `k` bytes (the
reference encoder for the signed types). -/
def toUnsigned (k : Nat) (i : Int) : Nat := (i % (2 ^ (8 * k) : Nat)).toNat

/-- `parse_be` for a `k`-byte signed integer (`i8`…`i64`). -/
def parse_be_int (k : Nat) (input : Bytes) : Option Int × Bytes :=
  match parse_be_uint k input with
  | (some v, rest) => (some (toSigned k v), rest)
  | (none, rest) => (none, rest)

/-- `parse_le` for a `k`-byte signed integer. -/
def parse_le_int (k : Nat) (input : Bytes) : Option Int × Bytes :=
  match parse_le_uint k input with
  | (some v, rest) => (some (toSigned k v), rest)
  | (none, rest) => (none, rest)

/-! ## Array and record parsers (parse.rs `parseable_array`, `parseable_struct`)

Both copy the cursor into a local (`let mut bytes = *input`), parse
element-by-element / field-by-field from the local cursor propagating the
first failure with `?` (which returns before the `*input = bytes`
write-back, so the caller's cursor is left at its original position), and
write the advanced cursor back only on success. -/

/-- The element loop of `parseable_array` (parse.rs:73–75 / 83–85): `n`
elements parsed sequentially from a local cursor, failing fast. -/
def parse_array_elems {α : Type} (p : Bytes → Option α × Bytes) :
    Nat → Bytes → Option (List α × Bytes)
  | 0, bytes => some ([], bytes)
  | n + 1, bytes =>
    match p bytes with
    | (some v, bytes') =>
      match parse_array_elems p n bytes' with
      | some (vs, bytesF) => some (v :: vs, bytesF)
      | none => none
    | (none, _) => none

/-- `[T; n]` parser (parse.rs:67–91): on failure of any element, the
original cursor is returned. -/
def parse_array {α : Type} (p : Bytes → Option α × Bytes) (n : Nat)
    (input : Bytes) : Option (List α) × Bytes :=
  match parse_array_elems p n input with
  | some (vs, bytes) => (some vs, bytes)
  | none => (none, input)

/-! ## TrueType structures (ttf.rs) -/

/-- ttf.rs:16–22. -/
structure OffsetSubtable where
  scaler_type : Nat
  num_tables : Nat
  search_range : Nat
  entry_selector : Nat
  range_shift : Nat
deriving DecidableEq

/-- `OffsetSubtable::parse_be` (generated by `parseable_struct`): fields in
declaration order from a local cursor, fail-fast, write-back on success. -/
def OffsetSubtable.parse_be (input : Bytes) : Option OffsetSubtable × Bytes :=
  match parse_be_uint 4 input with
  | (none, _) => (none, input)
  | (some scaler_type, b) =>
  match parse_be_uint 2 b with
  | (none, _) => (none, input)
  | (some num_tables, b) =>
  match parse_be_uint 2 b with
  | (none, _) => (none, input)
  | (some search_range, b) =>
  match parse_be_uint 2 b with
  | (none, _) => (none, input)
  | (some entry_selector, b) =>
  match parse_be_uint 2 b with
  | (none, _) => (none, input)
  | (some range_shift, b) =>
    (some ⟨scaler_type, num_tables, search_range, entry_selector, range_shift⟩, b)

/-- ttf.rs:25–30; the `tag` is a `[u8; 4]`. -/
structure TableDirectoryEntry where
  tag : Bytes
  checksum : Nat
  offset : Nat
  length : Nat
deriving DecidableEq

/-- `TableDirectoryEntry::parse_be` (generated by `parseable_struct`). -/
def TableDirectoryEntry.parse_be (input : Bytes) : Option TableDirectoryEntry × Bytes :=
  match parse_array (parse_be_uint 1) 4 input with
  | (none, _) => (none, input)
  | (some tag, b) =>
  match parse_be_uint 4 b with
  | (none, _) => (none, input)
  | (some checksum, b) =>
  match parse_be_uint 4 b with
  | (none, _) => (none, input)
  | (some offset, b) =>
  match parse_be_uint 4 b with
  | (none, _) => (none, input)
  | (some length, b) => (some ⟨tag, checksum, offset, length⟩, b)

/-- ttf.rs:33–51 (`Fixed` = `i32`, `LongDateTime` = `i64`, `FWord` = `i16`). -/
structure HeadTable where
  version : Int
  font_revision : Int
  checksum_adjustment : Nat
  magic_number : Nat
  flags : Nat
  units_per_em : Nat
  created : Int
  modified : Int
  x_min : Int
  y_min : Int
  x_max : Int
  y_max : Int
  mac_style : Nat
  lowest_rec_ppem : Nat
  font_direction_hint : Int
  index_to_loc_format : Int
  glyph_data_format : Int
deriving DecidableEq

/-- `HeadTable::parse_be` (generated by `parseable_struct`). -/
def HeadTable.parse_be (input : Bytes) : Option HeadTable × Bytes :=
  match parse_be_int 4 input with
  | (none, _) => (none, input)
  | (some version, b) =>
  match parse_be_int 4 b with
  | (none, _) => (none, input)
  | (some font_revision, b) =>
  match parse_be_uint 4 b with
  | (none, _) => (none, input)
  | (some checksum_adjustment, b) =>
  match parse_be_uint 4 b with
  | (none, _) => (none, input)
  | (some magic_number, b) =>
  match parse_be_uint 2 b with
  | (none, _) => (none, input)
  | (some flags, b) =>
  match parse_be_uint 2 b with
  | (none, _) => (none, input)
  | (some units_per_em, b) =>
  match parse_be_int 8 b with
  | (none, _) => (none, input)
  | (some created, b) =>
  match parse_be_int 8 b with
  | (none, _) => (none, input)
  | (some modified, b) =>
  match parse_be_int 2 b with
  | (none, _) => (none, input)
  | (some x_min, b) =>
  match parse_be_int 2 b with
  | (none, _) => (none, input)
  | (some y_min, b) =>
  match parse_be_int 2 b with
  | (none, _) => (none, input)
  | (some x_max, b) =>
  match parse_be_int 2 b with
  | (none, _) => (none, input)
  | (some y_max, b) =>
  match parse_be_uint 2 b with
  | (none, _) => (none, input)
  | (some mac_style, b) =>
  match parse_be_uint 2 b with
  | (none, _) => (none, input)
  | (some lowest_rec_ppem, b) =>
  match parse_be_int 2 b with
  | (none, _) => (none, input)
  | (some font_direction_hint, b) =>
  match parse_be_int 2 b with
  | (none, _) => (none, input)
  | (some index_to_loc_format, b) =>
  match parse_be_int 2 b with
  | (none, _) => (none, input)
  | (some glyph_data_format, b) =>
    (some ⟨version, font_revision, checksum_adjustment, magic_number, flags,
      units_per_em, created, modified, x_min, y_min, x_max, y_max, mac_style,
      lowest_rec_ppem, font_direction_hint, index_to_loc_format,
      glyph_data_format⟩, b)

/-- ttf.rs:82–89. -/
structure NameRecord where
  platform_id : Nat
  platform_specific_id : Nat
  language_id : Nat
  name_id : Nat
  length : Nat
  offset : Nat
deriving DecidableEq

/-- `NameRecord::parse_be` (generated by `parseable_struct`). -/
def NameRecord.parse_be (input : Bytes) : Option NameRecord × Bytes :=
  match parse_be_uint 2 input with
  | (none, _) => (none, input)
  | (some platform_id, b) =>
  match parse_be_uint 2 b with
  | (none, _) => (none, input)
  | (some platform_specific_id, b) =>
  match parse_be_uint 2 b with
  | (none, _) => (none, input)
  | (some language_id, b) =>
  match parse_be_uint 2 b with
  | (none, _) => (none, input)
  | (some name_id, b) =>
  match parse_be_uint 2 b with
  | (none, _) => (none, input)
  | (some length, b) =>
  match parse_be_uint 2 b with
  | (none, _) => (none, input)
  | (some offset, b) =>
    (some ⟨platform_id, platform_specific_id, language_id, name_id, length, offset⟩, b)

/-- ttf.rs:54–61. -/
structure NameTable where
  format : Nat
  count : Nat
  string_offset : Nat
  name_records : List NameRecord
deriving DecidableEq

/-- `NameTable::parse_be` (ttf.rs:63–79, a hand-written `Parse` impl):
header fields then `count` records pushed in a loop, fail-fast with `?`,
write-back on success only. -/
def NameTable.parse_be (input : Bytes) : Option NameTable × Bytes :=
  match parse_be_uint 2 input with
  | (none, _) => (none, input)
  | (some format, b) =>
  match parse_be_uint 2 b with
  | (none, _) => (none, input)
  | (some count, b) =>
  match parse_be_uint 2 b with
  | (none, _) => (none, input)
  | (some string_offset, b) =>
  match parse_array_elems NameRecord.parse_be count b with
  | none => (none, input)
  | some (name_records, b) =>
    (some ⟨format, count, string_offset, name_records⟩, b)

/-! ## Association maps (model of `HashMap` / `HashSet` as used in ttf.rs) -/

/-- `HashMap::insert`: replace an existing binding or append a new one. -/
def mapInsert {κ ν : Type} [DecidableEq κ] : List (κ × ν) → κ → ν → List (κ × ν)
  | [], k, v => [(k, v)]
  | (k', v') :: rest, k, v =>
    if k' = k then (k, v) :: rest else (k', v') :: mapInsert rest k v

/-- `HashMap::get`. -/
def mapGet {κ ν : Type} [DecidableEq κ] : List (κ × ν) → κ → Option ν
  | [], _ => none
  | (k', v') :: rest, k => if k' = k then some v' else mapGet rest k

/-- `u8 as char` on each tag byte, then `format!("{}{}{}{}", …)` (ttf.rs:124-125). -/
def tagString (tag : Bytes) : String := String.mk (tag.map Char.ofNat)

/-- The table-directory loop (ttf.rs:122–127).  Each entry parse result is
`.unwrap()`-ed, so a parse failure is a panic, modelled as `none`. -/
def collect_entries :
    Nat → Bytes → List (String × TableDirectoryEntry) →
    Option (List (String × TableDirectoryEntry) × Bytes)
  | 0, bytes, entries => some (entries, bytes)
  | n + 1, bytes, entries =>
    match TableDirectoryEntry.parse_be bytes with
    | (none, _) => none
    | (some e, bytes') =>
      collect_entries n bytes' (mapInsert entries (tagString e.tag) e)

/-! ## Name-string decoding (ttf.rs:156–169) -/

/-- Is `b` a UTF-8 continuation byte? -/
def isCont (b : Nat) : Bool := 0x80 ≤ b && b ≤ 0xBF

/-- Valid range of the second byte of a multi-byte UTF-8 sequence led by `b0`
(the ranges that exclude overlong encodings and surrogates, as enforced by
Rust's UTF-8 validation). -/
def utf8SecondOk (b0 b1 : Nat) : Bool :=
  if b0 = 0xE0 then 0xA0 ≤ b1 && b1 ≤ 0xBF
  else if b0 = 0xED then 0x80 ≤ b1 && b1 ≤ 0x9F
  else if b0 = 0xF0 then 0x90 ≤ b1 && b1 ≤ 0xBF
  else if b0 = 0xF4 then 0x80 ≤ b1 && b1 ≤ 0x8F
  else isCont b1

/-- `String::from_utf8_lossy` (as a char list), with a step-count bound
(the bound is the number of input bytes; every step consumes at least one
byte, so the bound is never exhausted): decode each scalar, or emit U+FFFD
for each maximal invalid subpart (an invalid lead byte, a lead byte whose
continuation bytes stop matching — resuming at the offending byte — or an
incomplete sequence at the end of the input). -/
def utf8CharsGo : Nat → Bytes → List Char
  | 0, _ => []
  | _, [] => []
  | fuel + 1, b0 :: rest =>
    if b0 < 0x80 then Char.ofNat b0 :: utf8CharsGo fuel rest
    else if 0xC2 ≤ b0 ∧ b0 ≤ 0xDF then
      match rest with
      | [] => [Char.ofNat 0xFFFD]
      | b1 :: rest1 =>
        if isCont b1 then
          Char.ofNat ((b0 - 0xC0) * 0x40 + (b1 - 0x80)) :: utf8CharsGo fuel rest1
        else Char.ofNat 0xFFFD :: utf8CharsGo fuel (b1 :: rest1)
    else if 0xE0 ≤ b0 ∧ b0 ≤ 0xEF then
      match rest with
      | [] => [Char.ofNat 0xFFFD]
      | b1 :: rest1 =>
        if utf8SecondOk b0 b1 then
          match rest1 with
          | [] => [Char.ofNat 0xFFFD]
          | b2 :: rest2 =>
            if isCont b2 then
              Char.ofNat ((b0 - 0xE0) * 0x1000 + (b1 - 0x80) * 0x40 + (b2 - 0x80)) ::
                utf8CharsGo fuel rest2
            else Char.ofNat 0xFFFD :: utf8CharsGo fuel (b2 :: rest2)
        else Char.ofNat 0xFFFD :: utf8CharsGo fuel (b1 :: rest1)
    else if 0xF0 ≤ b0 ∧ b0 ≤ 0xF4 then
      match rest with
      | [] => [Char.ofNat 0xFFFD]
      | b1 :: rest1 =>
        if utf8SecondOk b0 b1 then
          match rest1 with
          | [] => [Char.ofNat 0xFFFD]
          | b2 :: rest2 =>
            if isCont b2 then
              match rest2 with
              | [] => [Char.ofNat 0xFFFD]
              | b3 :: rest3 =>
                if isCont b3 then
                  Char.ofNat ((b0 - 0xF0) * 0x40000 + (b1 - 0x80) * 0x1000 +
                    (b2 - 0x80) * 0x40 + (b3 - 0x80)) :: utf8CharsGo fuel rest3
                else Char.ofNat 0xFFFD :: utf8CharsGo fuel (b3 :: rest3)
            else Char.ofNat 0xFFFD :: utf8CharsGo fuel (b2 :: rest2)
        else Char.ofNat 0xFFFD :: utf8CharsGo fuel (b1 :: rest1)
    else Char.ofNat 0xFFFD :: utf8CharsGo fuel rest

/-- `String::from_utf8_lossy` (as a char list). -/
def utf8Chars (bs : Bytes) : List Char := utf8CharsGo bs.length bs

/-- `data.chunks_exact(2) … u16::from_be_bytes` (ttf.rs:163–167); a trailing
odd byte is dropped by `chunks_exact`. -/
def toU16Be : Bytes → List Nat
  | b0 :: b1 :: rest => (b0 * 256 + b1) :: toU16Be rest
  | _ => []

/-- `String::from_utf16_lossy` with a step-count bound (every step consumes
at least one unit, so the bound — the number of units — is never
exhausted): combine surrogate pairs, replace unpaired surrogates with
U+FFFD. -/
def utf16CharsGo : Nat → List Nat → List Char
  | 0, _ => []
  | _, [] => []
  | fuel + 1, u :: rest =>
    if u < 0xD800 ∨ 0xE000 ≤ u then Char.ofNat u :: utf16CharsGo fuel rest
    else if u < 0xDC00 then
      match rest with
      | v :: rest1 =>
        if 0xDC00 ≤ v ∧ v < 0xE000 then
          Char.ofNat (0x10000 + (u - 0xD800) * 0x400 + (v - 0xDC00)) ::
            utf16CharsGo fuel rest1
        else Char.ofNat 0xFFFD :: utf16CharsGo fuel (v :: rest1)
      | [] => [Char.ofNat 0xFFFD]
    else Char.ofNat 0xFFFD :: utf16CharsGo fuel rest

/-- `String::from_utf16_lossy` (as a char list). -/
def utf16Chars (us : List Nat) : List Char := utf16CharsGo us.length us

/-- The per-record string decoding of ttf.rs:157–169: platform ID 1 uses
`String::from_utf8_lossy`, every other platform uses big-endian UTF-16. -/
def decodeName (platform_id : Nat) (data : Bytes) : String :=
  if platform_id = 1 then String.mk (utf8Chars data)
  else String.mk (utf16Chars (toU16Be data))

/-! ## The TrueType file parser (ttf.rs `TtfFile`) -/

/-- `HashSet::insert` into the name-id map (ttf.rs:170–175). -/
def namesInsert : List (Nat × List String) → Nat → String → List (Nat × List String)
  | [], id, t => [(id, [t])]
  | (id', s) :: rest, id, t =>
    if id' = id then (id', if t ∈ s then s else t :: s) :: rest
    else (id', s) :: namesInsert rest id t

/-- The name-collection loop (ttf.rs:152–176).  The slice
`&strings[offs..(offs + len)]` panics when it goes past the end of the
string region; the panic is modelled as `none`. -/
def collect_names (strings : Bytes) :
    List NameRecord → List (Nat × List String) → Option (List (Nat × List String))
  | [], names => some names
  | e :: rest, names =>
    if strings.length < e.offset + e.length then none
    else
      collect_names strings rest
        (namesInsert names e.name_id
          (decodeName e.platform_id ((strings.drop e.offset).take e.length)))

/-- Outcome of a Rust computation that can return `Ok`, return `Err(())`,
or panic (`.unwrap()` / out-of-range slicing). -/
inductive POut (α : Type) where
  | ok (val : α)
  | err
  | panic
deriving DecidableEq

/-- ttf.rs:95–100 (the derived name map included). -/
structure TtfFile where
  offset : OffsetSubtable
  head : HeadTable
  name : NameTable
  names : List (Nat × List String)
deriving DecidableEq

/-- The magic number that must be in the head table (ttf.rs:8). -/
def HEAD_TABLE_MAGIC : Nat := 0x5F0F3CF5

/-- ttf.rs:115–127: offset subtable, then the table-directory loop whose
entry parses are `.unwrap()`-ed (panic on truncation). -/
def ttfDirStage (input : Bytes) :
    POut (OffsetSubtable × List (String × TableDirectoryEntry) × Bytes) :=
  match OffsetSubtable.parse_be input with
  | (none, _) => .err
  | (some offset, b1) =>
    match collect_entries offset.num_tables b1 [] with
    | none => .panic
    | some (entries, b2) => .ok (offset, entries, b2)

/-- ttf.rs:128–135: look up "head" (`Err` if absent), re-slice the original
input at the entry's absolute offset (`&input[offset..]` panics when the
offset exceeds the input length), parse the head table (`?` propagates
truncation as `Err`). -/
def ttfHeadStage (input : Bytes) :
    POut (OffsetSubtable × List (String × TableDirectoryEntry) × Bytes × HeadTable) :=
  match ttfDirStage input with
  | .err => .err
  | .panic => .panic
  | .ok (offset, entries, b2) =>
    match mapGet entries "head" with
    | none => .err
    | some head_entry =>
      if input.length < head_entry.offset then .panic
      else
        match HeadTable.parse_be (input.drop head_entry.offset) with
        | (none, _) => .err
        | (some head, _) => .ok (offset, entries, b2, head)

/-- `TtfFile::parse_be` (ttf.rs:115–187).  After the magic-number gate:
look up "name" (`Err` if absent), re-slice the original input (panic when
out of range), parse the name table (`.unwrap()`: panic on failure),
re-slice the string region (panic when `string_offset` is out of range),
then run the name-collection loop.  On success the cursor written back is
the one after the table directory. -/
def TtfFile.parse_be (input : Bytes) : POut (TtfFile × Bytes) :=
  match ttfHeadStage input with
  | .err => .err
  | .panic => .panic
  | .ok (offset, entries, b2, head) =>
    if head.magic_number ≠ HEAD_TABLE_MAGIC then .err
    else
      match mapGet entries "name" with
      | none => .err
      | some name_entry =>
        if input.length < name_entry.offset then .panic
        else
          let orig_name_bytes := input.drop name_entry.offset
          match NameTable.parse_be orig_name_bytes with
          | (none, _) => .panic
          | (some name, _) =>
            if orig_name_bytes.length < name.string_offset then .panic
            else
              match collect_names (orig_name_bytes.drop name.string_offset)
                  name.name_records [] with
              | none => .panic
              | some names => .ok (⟨offset, head, name, names⟩, b2)

/-- `TtfFile::parse` (ttf.rs:104–106): run `parse_be` on the full input and
drop the final cursor. -/
def TtfFile.parse (input : Bytes) : POut TtfFile :=
  match TtfFile.parse_be input with
  | .ok (f, _) => .ok f
  | .err => .err
  | .panic => .panic

/-- Projection: the head table a given input parses to (stages up to and
excluding the magic check), used to state the magic-number gate. -/
def headOf (input : Bytes) : Option HeadTable :=
  match ttfHeadStage input with
  | .ok (_, _, _, head) => some head
  | _ => none

/-! ## The rectangle packer (pack.rs), instantiated as `pack_glyphs` does
(lib.rs:158–162): size selector `(width, height)`, ordering by
`max(width, height)`, key selector the item's key.  Items are triples
`(key, width, height)`. -/

/-- pack.rs:179–188. -/
structure Rect where
  x : Nat
  y : Nat
  width : Nat
  height : Nat
deriving DecidableEq

/-- pack.rs:191–218.  In the source a `Node` is an occupied flag, a box and
optional `down`/`right` children; every occupied node has both children
(`split_node`, `grow_right` and `grow_down` always set both), and
`find_node` only dereferences children of occupied nodes, so the tree is
rendered as free leaves and occupied binary nodes. -/
inductive Node where
  | free (x y width height : Nat)
  | occ (x y width height : Nat) (down right : Node)
deriving DecidableEq

/-- The node's `x` field. -/
def nodeX : Node → Nat
  | .free x _ _ _ => x
  | .occ x _ _ _ _ _ => x

/-- The node's `y` field. -/
def nodeY : Node → Nat
  | .free _ y _ _ => y
  | .occ _ y _ _ _ _ => y

/-- The node's `width` field. -/
def nodeW : Node → Nat
  | .free _ _ w _ => w
  | .occ _ _ w _ _ _ => w

/-- The node's `height` field. -/
def nodeH : Node → Nat
  | .free _ _ _ h => h
  | .occ _ _ _ h _ _ => h

/-- The node's bounding box as a `Rect`. -/
def region (n : Node) : Rect := ⟨nodeX n, nodeY n, nodeW n, nodeH n⟩

/-- `find_node` (pack.rs:93–108) fused with the in-place mutation of
`split_node` (pack.rs:111–117): search the tree depth-first (the whole
`right` subtree before the `down` subtree at every occupied node) for the
first unoccupied node with `w ≤ width` and `h ≤ height`; occupy it, carve
the `down` child (full width, below the item) and the `right` child (right
of the item, exactly the item's height), and return the rebuilt tree
together with the found node's box (which is what `fit` turns into the
recorded `Rect`, pack.rs:83–89). -/
def findAndSplit : Node → Nat → Nat → Option (Node × Rect)
  | .occ x y nw nh down right, w, h =>
    match findAndSplit right w h with
    | some (right', rect) => some (.occ x y nw nh down right', rect)
    | none =>
      match findAndSplit down w h with
      | some (down', rect) => some (.occ x y nw nh down' right, rect)
      | none => none
  | .free x y nw nh, w, h =>
    if w ≤ nw ∧ h ≤ nh then
      some (.occ x y nw nh (.free x (y + h) nw (nh - h)) (.free (x + w) y (nw - w) h),
        ⟨x, y, nw, nh⟩)
    else none

/-- `grow_right` (pack.rs:148–160): new occupied root, `down` = old root,
`right` = the fresh strip, then find-and-split (the `expect` panic is
`none`). -/
def grow_right (root : Node) (w h : Nat) : Option (Node × Rect) :=
  findAndSplit
    (.occ 0 0 (nodeW root + w) (nodeH root) root (.free (nodeW root) 0 w (nodeH root)))
    w h

/-- `grow_down` (pack.rs:163–175): new occupied root, `right` = old root,
`down` = the fresh strip. -/
def grow_down (root : Node) (w h : Nat) : Option (Node × Rect) :=
  findAndSplit
    (.occ 0 0 (nodeW root) (nodeH root + h) (.free 0 (nodeH root) (nodeW root) h) root)
    w h

/-- `grow_node` (pack.rs:120–145); the final `else` is
`panic!("Invalid sorting!")`, modelled as `none`. -/
def grow_node (root : Node) (w h : Nat) : Option (Node × Rect) :=
  let root_w := nodeW root
  let root_h := nodeH root
  let can_down := w ≤ root_w
  let can_right := h ≤ root_h
  let should_right := can_right ∧ root_h > root_w + w
  let should_down := can_down ∧ root_w > root_h + h
  if should_right then grow_right root w h
  else if should_down then grow_down root w h
  else if can_right then grow_right root w h
  else if can_down then grow_down root w h
  else none

/-- `Packer::fit` (pack.rs:76–90). -/
def fit (root : Node) (w h : Nat) : Option (Node × Rect) :=
  match findAndSplit root w h with
  | some r => some r
  | none => grow_node root w h

/-- `max(width, height)`, the sort key of `pack_glyphs` (lib.rs:161). -/
def maxDim (wh : Nat × Nat) : Nat := max wh.1 wh.2

/-- Stable insertion for the descending max-dimension order: the new item
goes before the first element whose max dimension is `≤` its own, i.e.
after every earlier element with a `≥` max dimension. -/
def insertByMaxDim {K : Type} (it : K × Nat × Nat) :
    List (K × Nat × Nat) → List (K × Nat × Nat)
  | [] => [it]
  | it' :: rest =>
    if maxDim it.2 < maxDim it'.2 then it' :: insertByMaxDim it rest
    else it :: it' :: rest

/-- `to_pack.sort_by(|a, b| ordering_f(&size_f(a), &size_f(b)).reverse())`
(pack.rs:30) with the `pack_glyphs` comparator: a stable sort descending by
max dimension.  Rust's `sort_by` is stable, and a stable sort for a total
preorder has a unique result, so stable insertion sort computes the same
list. -/
def sortByMaxDimDesc {K : Type} : List (K × Nat × Nat) → List (K × Nat × Nat)
  | [] => []
  | it :: rest => insertByMaxDim it (sortByMaxDimDesc rest)

/-- pack.rs:52–59; the `HashMap` is an association list (keys are unique in
every claim considered). -/
structure PackResult (K : Type) where
  width : Nat
  height : Nat
  items : List (K × Rect)
deriving DecidableEq

/-- The packing loop (pack.rs:37–42): fit each item in sorted order and
record `(key, rect)`; `none` means a packer panic. -/
def bin_pack_loop {K : Type} : Node → List (K × Nat × Nat) → Option (Node × List (K × Rect))
  | root, [] => some (root, [])
  | root, (k, w, h) :: rest =>
    match fit root w h with
    | none => none
    | some (root', rect) =>
      match bin_pack_loop root' rest with
      | none => none
      | some (rootF, items) => some (rootF, (k, rect) :: items)

/-- `bin_pack` (pack.rs:16–49) at the `pack_glyphs` instantiation: sort
descending by max dimension, start from a root sized to the first sorted
item (`(0,0)` when empty), fit every item, and return the final root's
width/height with the key→rectangle map. -/
def bin_pack {K : Type} (to_pack : List (K × Nat × Nat)) : Option (PackResult K) :=
  let sorted := sortByMaxDimDesc to_pack
  let wh := match sorted with
    | [] => (0, 0)
    | it :: _ => it.2
  match bin_pack_loop (Node.free 0 0 wh.1 wh.2) sorted with
  | none => none
  | some (root, items) => some ⟨nodeW root, nodeH root, items⟩

/-! ### Geometry: containment and disjointness of rectangles -/

/-- `a` lies inside `b` (interval containment on both axes). -/
def subR (a b : Rect) : Prop :=
  b.x ≤ a.x ∧ a.x + a.width ≤ b.x + b.width ∧
  b.y ≤ a.y ∧ a.y + a.height ≤ b.y + b.height

/-- `a` and `b` do not overlap: they are separated on some axis.  (This is
interval disjointness, which for rectangles of positive area coincides
with having no common point.) -/
def disjR (a b : Rect) : Prop :=
  a.x + a.width ≤ b.x ∨ b.x + b.width ≤ a.x ∨
  a.y + a.height ≤ b.y ∨ b.y + b.height ≤ a.y

instance (a b : Rect) : Decidable (subR a b) := by unfold subR; infer_instance

instance (a b : Rect) : Decidable (disjR a b) := by unfold disjR; infer_instance

/-- The boxes of the unoccupied leaves, in `find_node`'s search order
(`right` subtree before `down` subtree). -/
def freeRects : Node → List Rect
  | .free x y w h => [⟨x, y, w, h⟩]
  | .occ _ _ _ _ down right => freeRects right ++ freeRects down

/-- The `down` child carved by `split_node` out of leaf `L` for an item of
size `w`×`h`. -/
def downR (L : Rect) (w h : Nat) : Rect := ⟨L.x, L.y + h, L.width, L.height - h⟩

/-- The `right` child carved by `split_node`. -/
def rightR (L : Rect) (w h : Nat) : Rect := ⟨L.x + w, L.y, L.width - w, h⟩

/-- The effective placement of an item of size `w`×`h` recorded with
rectangle `r`: the node's position with the item's own dimensions. -/
def itemRect (r : Rect) (w h : Nat) : Rect := ⟨r.x, r.y, w, h⟩

/-- The packer invariant relating the tree to the item-sized rectangles
placed so far: the root is at the origin; free leaves and placements lie
inside the root's box; free leaves are pairwise disjoint, disjoint from
every placement, and placements are pairwise disjoint. -/
structure PackInv (root : Node) (placed : List Rect) : Prop where
  originX : nodeX root = 0
  originY : nodeY root = 0
  freeIn : ∀ f ∈ freeRects root, subR f (region root)
  placedIn : ∀ p ∈ placed, subR p (region root)
  freeDisj : (freeRects root).Pairwise disjR
  freePlaced : ∀ f ∈ freeRects root, ∀ p ∈ placed, disjR f p
  placedDisj : placed.Pairwise disjR

/-- The `out` entry matches its item: same key, rectangle at least as large
as the item, rectangle inside the final root's box. -/
def placedOk {K : Type} (rootF : Node) (it : K × Nat × Nat) (pl : K × Rect) : Prop :=
  pl.1 = it.1 ∧ it.2.1 ≤ pl.2.width ∧ it.2.2 ≤ pl.2.height ∧ subR pl.2 (region rootF)

/-- The item-sized placements: each recorded position paired with its own
item's width and height. -/
def itemRects {K : Type} (items : List (K × Nat × Nat)) (out : List (K × Rect)) : List Rect :=
  List.zipWith (fun it pl => itemRect pl.2 it.2.1 it.2.2) items out

/-! ### Concrete inputs for the TrueType claims -/

/-- A 12-byte file: an offset subtable declaring `num_tables = 1` with no
directory bytes after it. -/
def truncatedDirInput : Bytes := [0, 0, 0, 0, 0, 1, 0, 0, 0, 0, 0, 0]

/-- A complete two-table font image: offset subtable (`num_tables = 2`),
"head" and "name" directory entries, a head table at offset 44 with the
given 4 magic bytes, and a name table at offset 98 with one platform-1
record of the given length over a 5-byte "Arial" string region. -/
def ttfImage (magic : Bytes) (reclen : Nat) : Bytes :=
  [0, 1, 0, 0, 0, 2, 0, 0, 0, 0, 0, 0] ++
  [104, 101, 97, 100, 0, 0, 0, 0, 0, 0, 0, 44, 0, 0, 0, 54] ++
  [110, 97, 109, 101, 0, 0, 0, 0, 0, 0, 0, 98, 0, 0, 0, 23] ++
  List.replicate 12 0 ++ magic ++ List.replicate 38 0 ++
  [0, 0, 0, 1, 0, 18] ++ [0, 1, 0, 0, 0, 0, 0, 4, 0, reclen, 0, 0] ++
  [65, 114, 105, 97, 108]

/-- The image whose single name record has `offset + length = 10`, past the
end of its 5-byte string region. -/
def oobNameRecordInput : Bytes := ttfImage [0x5F, 0x0F, 0x3C, 0xF5] 10

/-- The image whose head table's magic number is 0 instead of
`0x5F0F3CF5`. -/
def badMagicInput : Bytes := ttfImage [0, 0, 0, 0] 5

/-- The head table `badMagicInput` parses to: all fields zero. -/
def badMagicHead : HeadTable := ⟨0, 0, 0, 0, 0, 0, 0, 0, 0, 0, 0, 0, 0, 0, 0, 0, 0⟩

/-! ### Bridge lemmas: the `|=`/`<<` loop computes the little-endian value -/

theorem leVal_lt (bs : Bytes) (hb : ∀ b ∈ bs, b < 256) :
    leVal bs < 2 ^ (8 * bs.length) := by
  induction bs with
  | nil => simp [leVal]
  | cons b rest ih =>
    have hb' : b < 256 := hb b (by simp)
    have hr := ih (fun x hx => hb x (by simp [hx]))
    have h2 : 2 ^ (8 * (b :: rest).length) = 256 * 2 ^ (8 * rest.length) := by
      rw [List.length_cons, Nat.mul_succ, Nat.mul_comm 8 rest.length]
      rw [Nat.pow_add]
      ring
    rw [leVal, h2]
    omega

/-- Disjoint-bits `or` is addition: if `a < 2^n` then `a ||| (b <<< n) = a + b·2^n`. -/
theorem lor_shiftLeft_eq_add {a : Nat} (b n : Nat) (ha : a < 2 ^ n) :
    a ||| (b <<< n) = a + b * 2 ^ n := by
  rw [Nat.shiftLeft_eq]
  apply Nat.eq_of_testBit_eq
  intro i
  rw [Nat.testBit_lor]
  rcases Nat.lt_or_ge i n with hin | hin
  · -- low bits: the added term contributes nothing below bit `n`
    have h1 : (a + b * 2 ^ n) % 2 ^ n = a := by
      rw [Nat.add_mul_mod_self_right, Nat.mod_eq_of_lt ha]
    have h2 : (b * 2 ^ n) % 2 ^ n = 0 := Nat.mul_mod_left b (2 ^ n)
    have e1 : a.testBit i = (a + b * 2 ^ n).testBit i := by
      conv_lhs => rw [← h1]
      rw [Nat.testBit_mod_two_pow, decide_eq_true hin, Bool.true_and]
    have e2 : (b * 2 ^ n).testBit i = false := by
      have := Nat.testBit_mod_two_pow (b * 2 ^ n) n i
      rw [h2, decide_eq_true hin, Bool.true_and, Nat.zero_testBit] at this
      exact this.symm
    rw [e2, ← e1, Bool.or_false]
  · -- high bits: `a` contributes nothing at or above bit `n`
    have hsplit : 2 ^ i = 2 ^ n * 2 ^ (i - n) := by
      rw [← Nat.pow_add]
      congr 1
      omega
    have hdiva : a / 2 ^ i = 0 := by
      apply Nat.div_eq_of_lt
      calc a < 2 ^ n := ha
        _ ≤ 2 ^ i := Nat.pow_le_pow_right (by norm_num) hin
    have hdiv : (a + b * 2 ^ n) / 2 ^ i = b / 2 ^ (i - n) := by
      rw [hsplit, ← Nat.div_div_eq_div_mul,
        Nat.add_mul_div_right _ _ (Nat.two_pow_pos n),
        Nat.div_eq_of_lt ha, Nat.zero_add]
    have hdivb : (b * 2 ^ n) / 2 ^ i = b / 2 ^ (i - n) := by
      rw [hsplit, ← Nat.div_div_eq_div_mul,
        Nat.mul_div_cancel _ (Nat.two_pow_pos n)]
    rw [Nat.testBit_to_div_mod, Nat.testBit_to_div_mod, Nat.testBit_to_div_mod,
      hdiv, hdivb, hdiva]
    simp

/-- The accumulation loop computes the little-endian value of the first `k` bytes. -/
theorem accumLe_eq_leVal : ∀ (k : Nat) (bytes : Bytes),
    k ≤ bytes.length → (∀ b ∈ bytes.take k, b < 256) →
    accumLe k bytes = leVal (bytes.take k) := by
  have step : ∀ (k : Nat) (bytes : Bytes),
      accumLe (k + 1) bytes = accumLe k bytes ||| (bytes.getD k 0 <<< (k * 8)) := by
    intro k bytes
    unfold accumLe
    rw [List.range_succ, List.foldl_append, List.foldl_cons, List.foldl_nil]
  have takeSucc : ∀ (k : Nat) (bytes : Bytes), k < bytes.length →
      bytes.take (k + 1) = bytes.take k ++ [bytes.getD k 0] := by
    intro k bytes hk
    have hgetD : bytes.getD k 0 = bytes[k] := by
      rw [List.getD_eq_getElem?_getD, List.getElem?_eq_getElem hk, Option.getD_some]
    rw [hgetD, ← List.take_concat_get bytes k hk, List.concat_eq_append]
  have leValApp : ∀ (bs : Bytes) (b : Nat),
      leVal (bs ++ [b]) = leVal bs + b * 2 ^ (8 * bs.length) := by
    intro bs b
    induction bs with
    | nil => simp [leVal]
    | cons c rest ih =>
      rw [List.cons_append, leVal, leVal, ih, List.length_cons]
      have : 2 ^ (8 * (rest.length + 1)) = 256 * 2 ^ (8 * rest.length) := by
        rw [Nat.mul_succ, Nat.pow_add]
        ring
      rw [this]
      ring
  intro k
  induction k with
  | zero => intro bytes _ _; simp [accumLe, leVal]
  | succ k ih =>
    intro bytes hk hb
    have hk' : k < bytes.length := by omega
    have hble : ∀ b ∈ bytes.take k, b < 256 := by
      have hsub : bytes.take k = (bytes.take (k + 1)).take k := by
        rw [List.take_take, Nat.min_eq_left (by omega)]
      intro b hbmem
      exact hb b (List.mem_of_mem_take (hsub ▸ hbmem))
    rw [step, ih bytes (by omega) hble, takeSucc k bytes hk']
    have hlt : leVal (bytes.take k) < 2 ^ (8 * k) := by
      have := leVal_lt (bytes.take k) hble
      rwa [List.length_take, Nat.min_eq_left (by omega)] at this
    have h8 : k * 8 = 8 * k := Nat.mul_comm k 8
    rw [h8, lor_shiftLeft_eq_add _ _ hlt, leValApp]
    rw [List.length_take, Nat.min_eq_left (by omega)]

/-- Decoding the digits of a little-endian value recovers the bytes. -/
theorem toBytesLe_leVal : ∀ (bs : Bytes), (∀ b ∈ bs, b < 256) →
    toBytesLe bs.length (leVal bs) = bs := by
  intro bs
  induction bs with
  | nil => intro _; simp [toBytesLe]
  | cons b rest ih =>
    intro hb
    have hblt : b < 256 := hb b (by simp)
    rw [List.length_cons, leVal, toBytesLe]
    have h1 : (b + 256 * leVal rest) % 256 = b := by
      rw [Nat.add_mul_mod_self_left, Nat.mod_eq_of_lt hblt]
    have h2 : (b + 256 * leVal rest) / 256 = leVal rest := by
      rw [Nat.add_mul_div_left _ _ (by norm_num : (0:Nat) < 256),
        Nat.div_eq_of_lt hblt, Nat.zero_add]
    rw [h1, h2, ih (fun x hx => hb x (by simp [hx]))]

/-- Encoding then evaluating a `k`-byte value is the identity below `2^(8k)`. -/
theorem leVal_toBytesLe : ∀ (k v : Nat), v < 2 ^ (8 * k) →
    leVal (toBytesLe k v) = v := by
  intro k
  induction k with
  | zero => intro v hv; simp at hv; simp [toBytesLe, leVal, hv]
  | succ k ih =>
    intro v hv
    rw [toBytesLe, leVal, ih (v / 256) (by
      apply Nat.div_lt_of_lt_mul
      have : 2 ^ (8 * (k + 1)) = 256 * 2 ^ (8 * k) := by
        rw [Nat.mul_succ, Nat.pow_add]
        ring
      omega)]
    omega

theorem toBytesLe_length (k v : Nat) : (toBytesLe k v).length = k := by
  induction k generalizing v with
  | zero => simp [toBytesLe]
  | succ k ih => simp [toBytesLe, ih]

theorem toBytesLe_lt (k v : Nat) : ∀ b ∈ toBytesLe k v, b < 256 := by
  induction k generalizing v with
  | zero => simp [toBytesLe]
  | succ k ih =>
    intro b hb
    rw [toBytesLe] at hb
    rcases List.mem_cons.mp hb with h | h
    · subst h; exact Nat.mod_lt _ (by norm_num)
    · exact ih _ b h

theorem parse_le_uint_roundtrip (k v : Nat) (rest : Bytes) (hv : v < 2 ^ (8 * k)) :
    parse_le_uint k (toBytesLe k v ++ rest) = (some v, rest) := by
  have hlen : (toBytesLe k v ++ rest).length = k + rest.length := by
    rw [List.length_append, toBytesLe_length]
  have htake : (toBytesLe k v ++ rest).take k = toBytesLe k v :=
    List.take_left' (toBytesLe_length k v)
  have hdrop : (toBytesLe k v ++ rest).drop k = rest :=
    List.drop_left' (toBytesLe_length k v)
  rw [parse_le_uint, if_neg (by omega)]
  rw [accumLe_eq_leVal k _ (by omega) (by rw [htake]; exact toBytesLe_lt k v),
    htake, leVal_toBytesLe k v hv, from_le, hdrop]

theorem parse_be_uint_roundtrip (k v : Nat) (rest : Bytes) (hv : v < 2 ^ (8 * k)) :
    parse_be_uint k (toBytesBe k v ++ rest) = (some v, rest) := by
  have hlenBe : (toBytesBe k v).length = k := by
    rw [toBytesBe, List.length_reverse, toBytesLe_length]
  have hltBe : ∀ b ∈ toBytesBe k v, b < 256 := by
    intro b hb
    rw [toBytesBe, List.mem_reverse] at hb
    exact toBytesLe_lt k v b hb
  have hlen : (toBytesBe k v ++ rest).length = k + rest.length := by
    rw [List.length_append, hlenBe]
  have htake : (toBytesBe k v ++ rest).take k = toBytesBe k v :=
    List.take_left' hlenBe
  have hdrop : (toBytesBe k v ++ rest).drop k = rest :=
    List.drop_left' hlenBe
  rw [parse_be_uint, if_neg (by omega)]
  rw [accumLe_eq_leVal k _ (by omega) (by rw [htake]; exact hltBe), htake]
  rw [from_be]
  have : toBytesLe k (leVal (toBytesBe k v)) = toBytesBe k v := by
    have := toBytesLe_leVal (toBytesBe k v) hltBe
    rwa [hlenBe] at this
  rw [this, hdrop, beVal, toBytesBe, List.reverse_reverse, leVal_toBytesLe k v hv]

theorem toSigned_toUnsigned (k : Nat) (i : Int) (hk : 0 < k)
    (hlo : -(2 ^ (8 * k - 1) : Nat) ≤ i) (hhi : i < (2 ^ (8 * k - 1) : Nat)) :
    toSigned k (toUnsigned k i) = i := by
  have hsplit : (2 ^ (8 * k) : Nat) = 2 * 2 ^ (8 * k - 1) := by
    rw [← Nat.pow_succ']
    congr 1
    omega
  have hBpos : 0 < (2 ^ (8 * k - 1) : Nat) := Nat.two_pow_pos _
  have hvchar : (toUnsigned k i : Int) = i % ((2 ^ (8 * k) : Nat) : Int) := by
    rw [toUnsigned, Int.toNat_of_nonneg (Int.emod_nonneg i (by positivity))]
  have hmodval : i % ((2 ^ (8 * k) : Nat) : Int) =
      if 0 ≤ i then i else i + ((2 ^ (8 * k) : Nat) : Int) := by
    split
    · apply Int.emod_eq_of_lt ‹0 ≤ i›
      have : ((2 ^ (8 * k) : Nat) : Int) = 2 * ((2 ^ (8 * k - 1) : Nat) : Int) := by
        exact_mod_cast congrArg (Nat.cast : Nat → Int) hsplit
      omega
    · have hbig : ((2 ^ (8 * k) : Nat) : Int) = 2 * ((2 ^ (8 * k - 1) : Nat) : Int) := by
        exact_mod_cast congrArg (Nat.cast : Nat → Int) hsplit
      have hrw : i + ((2 ^ (8 * k) : Nat) : Int) =
          i + ((2 ^ (8 * k) : Nat) : Int) * 1 := by ring
      calc i % ((2 ^ (8 * k) : Nat) : Int)
          = (i + ((2 ^ (8 * k) : Nat) : Int) * 1) % ((2 ^ (8 * k) : Nat) : Int) := by
            rw [Int.add_mul_emod_self_left]
        _ = i + ((2 ^ (8 * k) : Nat) : Int) := by
            rw [← hrw]
            exact Int.emod_eq_of_lt (by omega) (by omega)
  have hv : (toUnsigned k i : Int) = if 0 ≤ i then i else i + ((2 ^ (8 * k) : Nat) : Int) :=
    hvchar.trans hmodval
  rw [toSigned]
  rcases le_or_lt 0 i with hi | hi
  · rw [if_pos hi] at hv
    rw [if_pos (by omega)]
    omega
  · rw [if_neg (by omega)] at hv
    rw [if_neg (by omega)]
    omega

theorem toUnsigned_lt (k : Nat) (i : Int) : toUnsigned k i < 2 ^ (8 * k) := by
  rw [toUnsigned]
  have hpos : (0 : Int) < ((2 ^ (8 * k) : Nat) : Int) := by positivity
  have h1 : 0 ≤ i % ((2 ^ (8 * k) : Nat) : Int) := Int.emod_nonneg i (ne_of_gt hpos)
  have h2 : i % ((2 ^ (8 * k) : Nat) : Int) < ((2 ^ (8 * k) : Nat) : Int) :=
    Int.emod_lt_of_pos i hpos
  omega

theorem parse_le_int_roundtrip (k : Nat) (i : Int) (rest : Bytes) (hk : 0 < k)
    (hlo : -(2 ^ (8 * k - 1) : Nat) ≤ i) (hhi : i < (2 ^ (8 * k - 1) : Nat)) :
    parse_le_int k (toBytesLe k (toUnsigned k i) ++ rest) = (some i, rest) := by
  rw [parse_le_int, parse_le_uint_roundtrip k (toUnsigned k i) rest (toUnsigned_lt k i)]
  show (some (toSigned k (toUnsigned k i)), rest) = (some i, rest)
  rw [toSigned_toUnsigned k i hk hlo hhi]

theorem parse_be_int_roundtrip (k : Nat) (i : Int) (rest : Bytes) (hk : 0 < k)
    (hlo : -(2 ^ (8 * k - 1) : Nat) ≤ i) (hhi : i < (2 ^ (8 * k - 1) : Nat)) :
    parse_be_int k (toBytesBe k (toUnsigned k i) ++ rest) = (some i, rest) := by
  rw [parse_be_int, parse_be_uint_roundtrip k (toUnsigned k i) rest (toUnsigned_lt k i)]
  show (some (toSigned k (toUnsigned k i)), rest) = (some i, rest)
  rw [toSigned_toUnsigned k i hk hlo hhi]

/-- C6: for every byte width `k > 0` (in particular the supported widths
1, 2, 4 and 8), both byte orders, and every representable value — unsigned
`v < 2^(8k)`, signed `i` between `-2^(8k-1)` inclusive and `2^(8k-1)`
exclusive — parsing the byte sequence produced by the corresponding
reference little- or big-endian encoder returns exactly that value, and
the cursor left behind is exactly the trailing bytes, i.e. the parse
consumed exactly `k` bytes. -/
theorem integral_roundtrip (k : Nat) (v : Nat) (i : Int) (rest : Bytes)
    (hk : 0 < k) (hv : v < 2 ^ (8 * k))
    (hlo : -(2 ^ (8 * k - 1) : Nat) ≤ i) (hhi : i < (2 ^ (8 * k - 1) : Nat)) :
    parse_le_uint k (toBytesLe k v ++ rest) = (some v, rest) ∧
    parse_be_uint k (toBytesBe k v ++ rest) = (some v, rest) ∧
    parse_le_int k (toBytesLe k (toUnsigned k i) ++ rest) = (some i, rest) ∧
    parse_be_int k (toBytesBe k (toUnsigned k i) ++ rest) = (some i, rest) :=
  ⟨parse_le_uint_roundtrip k v rest hv, parse_be_uint_roundtrip k v rest hv,
    parse_le_int_roundtrip k i rest hk hlo hhi,
    parse_be_int_roundtrip k i rest hk hlo hhi⟩

/-- Witness for C6 at `k = 2`, `v = 0x1234`, `i = -2`, trailing byte `[9]`. -/
theorem integral_roundtrip_witness :
    0 < 2 ∧ (0x1234 : Nat) < 2 ^ (8 * 2) ∧
    (-(2 ^ (8 * 2 - 1) : Nat) : Int) ≤ -2 ∧ (-2 : Int) < ((2 ^ (8 * 2 - 1) : Nat) : Int) ∧
    (parse_le_uint 2 (toBytesLe 2 0x1234 ++ [9]) = (some 0x1234, [9]) ∧
      parse_be_uint 2 (toBytesBe 2 0x1234 ++ [9]) = (some 0x1234, [9]) ∧
      parse_le_int 2 (toBytesLe 2 (toUnsigned 2 (-2)) ++ [9]) = (some (-2), [9]) ∧
      parse_be_int 2 (toBytesBe 2 (toUnsigned 2 (-2)) ++ [9]) = (some (-2), [9])) :=
  ⟨by decide, by decide, by decide, by decide,
    integral_roundtrip 2 0x1234 (-2) [9] (by decide) (by decide) (by decide) (by decide)⟩

/-- C7: parsing any fixed-width integer from a byte sequence shorter than
the width always fails — for both byte orders and both signednesses the
result is `Err` (and the cursor is untouched, so no byte is ever read). -/
theorem integral_truncation (k : Nat) (input : Bytes) (h : input.length < k) :
    parse_le_uint k input = (none, input) ∧ parse_be_uint k input = (none, input) ∧
    parse_le_int k input = (none, input) ∧ parse_be_int k input = (none, input) := by
  have hle : parse_le_uint k input = (none, input) := by
    rw [parse_le_uint, if_pos h]
  have hbe : parse_be_uint k input = (none, input) := by
    rw [parse_be_uint, if_pos h]
  refine ⟨hle, hbe, ?_, ?_⟩
  · rw [parse_le_int, hle]
  · rw [parse_be_int, hbe]

/-- Witness for C7 at `k = 4` on the 3-byte input `[1, 2, 3]`. -/
theorem integral_truncation_witness :
    ([1, 2, 3] : Bytes).length < 4 ∧
    (parse_le_uint 4 [1, 2, 3] = (none, [1, 2, 3]) ∧
      parse_be_uint 4 [1, 2, 3] = (none, [1, 2, 3]) ∧
      parse_le_int 4 [1, 2, 3] = (none, [1, 2, 3]) ∧
      parse_be_int 4 [1, 2, 3] = (none, [1, 2, 3])) :=
  ⟨by decide, integral_truncation 4 [1, 2, 3] (by decide)⟩

/-- C10: every `Parse` implementation — the fixed-width integers (both
orders and signednesses, any width), the element-wise array parser (for
any element parser and length), and the macro-generated record parsers of
ttf.rs — returns the caller's cursor unchanged whenever it fails: the
write-back of the advanced position happens only on the success path. -/
theorem parse_fail_cursor_unchanged :
    (∀ (k : Nat) (input : Bytes),
      (parse_le_uint k input).1 = none → (parse_le_uint k input).2 = input) ∧
    (∀ (k : Nat) (input : Bytes),
      (parse_be_uint k input).1 = none → (parse_be_uint k input).2 = input) ∧
    (∀ (k : Nat) (input : Bytes),
      (parse_le_int k input).1 = none → (parse_le_int k input).2 = input) ∧
    (∀ (k : Nat) (input : Bytes),
      (parse_be_int k input).1 = none → (parse_be_int k input).2 = input) ∧
    (∀ (α : Type) (p : Bytes → Option α × Bytes) (n : Nat) (input : Bytes),
      (parse_array p n input).1 = none → (parse_array p n input).2 = input) ∧
    (∀ input : Bytes,
      (OffsetSubtable.parse_be input).1 = none → (OffsetSubtable.parse_be input).2 = input) ∧
    (∀ input : Bytes,
      (TableDirectoryEntry.parse_be input).1 = none →
        (TableDirectoryEntry.parse_be input).2 = input) ∧
    (∀ input : Bytes,
      (HeadTable.parse_be input).1 = none → (HeadTable.parse_be input).2 = input) ∧
    (∀ input : Bytes,
      (NameRecord.parse_be input).1 = none → (NameRecord.parse_be input).2 = input) ∧
    (∀ input : Bytes,
      (NameTable.parse_be input).1 = none → (NameTable.parse_be input).2 = input) := by
  refine ⟨?_, ?_, ?_, ?_, ?_, ?_, ?_, ?_, ?_, ?_⟩
  · intro k input
    rw [parse_le_uint]
    split <;> simp
  · intro k input
    rw [parse_be_uint]
    split <;> simp
  · intro k input
    rw [parse_le_int]
    split
    · simp
    · rename_i rest heq
      intro _
      rw [parse_le_uint] at heq
      split at heq <;> simp_all
  · intro k input
    rw [parse_be_int]
    split
    · simp
    · rename_i rest heq
      intro _
      rw [parse_be_uint] at heq
      split at heq <;> simp_all
  · intro α p n input
    rw [parse_array]
    split <;> simp
  · intro input
    rw [OffsetSubtable.parse_be]
    repeat' split
    all_goals simp
  · intro input
    rw [TableDirectoryEntry.parse_be]
    repeat' split
    all_goals simp
  · intro input
    rw [HeadTable.parse_be]
    repeat' split
    all_goals simp
  · intro input
    rw [NameRecord.parse_be]
    repeat' split
    all_goals simp
  · intro input
    rw [NameTable.parse_be]
    repeat' split
    all_goals simp

/-- Witness for C10: failing parses at concrete truncated inputs leave the
cursor at the original position. -/
theorem parse_fail_cursor_unchanged_witness :
    (parse_be_uint 4 [1, 2]).1 = none ∧ (parse_be_uint 4 [1, 2]).2 = [1, 2] ∧
    (parse_array (parse_be_uint 2) 3 [7, 8, 9]).1 = none ∧
    (parse_array (parse_be_uint 2) 3 [7, 8, 9]).2 = [7, 8, 9] ∧
    (OffsetSubtable.parse_be [1, 2, 3, 4, 5]).1 = none ∧
    (OffsetSubtable.parse_be [1, 2, 3, 4, 5]).2 = [1, 2, 3, 4, 5] :=
  ⟨by decide, parse_fail_cursor_unchanged.2.1 4 [1, 2] (by decide),
    by decide, parse_fail_cursor_unchanged.2.2.2.2.1 Nat (parse_be_uint 2) 3 [7, 8, 9] (by decide),
    by decide, parse_fail_cursor_unchanged.2.2.2.2.2.1 [1, 2, 3, 4, 5] (by decide)⟩

/-! ### TrueType parser claims -/

/-- C3 (code bug): on an input too short to hold the declared table
directory entries, `TtfFile::parse` does not return `Err` — the
`.unwrap()` on `TableDirectoryEntry::parse_be` (ttf.rs:123) panics.
Evaluated at a 12-byte input whose offset subtable declares one table and
which has no directory bytes. -/
theorem truncated_directory_panics : TtfFile.parse truncatedDirInput = POut.panic := by
  decide

/-- C4 (code bug): on an input whose name table has a record with
`offset + length` past the end of the string storage region,
`TtfFile::parse` does not return `Err` — the unchecked slice
`&strings[offs..(offs + len)]` (ttf.rs:156) panics.  Evaluated at a
complete well-formed font image except that its single name record claims
10 bytes of a 5-byte string region. -/
theorem oob_name_record_panics : TtfFile.parse oobNameRecordInput = POut.panic := by
  decide

/-- C5: whenever the stages before the magic check succeed — the offset
subtable and table directory parse, a "head" entry exists, and the head
table itself parses — and the parsed `magic_number` differs from
`0x5F0F3CF5`, `TtfFile::parse` returns `Err`, regardless of the rest of
the input (the name table is never consulted). -/
theorem bad_magic_rejected (input : Bytes) (head : HeadTable)
    (hstage : headOf input = some head)
    (hmagic : head.magic_number ≠ HEAD_TABLE_MAGIC) :
    TtfFile.parse input = POut.err := by
  rw [headOf] at hstage
  rw [TtfFile.parse, TtfFile.parse_be]
  cases hrun : ttfHeadStage input with
  | ok r =>
    obtain ⟨o, es, b2, hd⟩ := r
    rw [hrun] at hstage
    simp only [Option.some.injEq] at hstage
    subst hstage
    simp only [if_pos hmagic]
  | err => rw [hrun] at hstage
  | panic =>
    rw [hrun] at hstage
    simp at hstage

/-- Witness for C5: `badMagicInput` parses through the head stage to the
all-zero head table (magic 0 ≠ 0x5F0F3CF5) and is rejected with `Err`. -/
theorem bad_magic_rejected_witness :
    headOf badMagicInput = some badMagicHead ∧
    badMagicHead.magic_number ≠ HEAD_TABLE_MAGIC ∧
    TtfFile.parse badMagicInput = POut.err :=
  ⟨by decide, by decide,
    bad_magic_rejected badMagicInput badMagicHead (by decide) (by decide)⟩

theorem utf8CharsGo_ascii : ∀ (fuel : Nat) (data : Bytes), data.length ≤ fuel →
    (∀ b ∈ data, b < 128) → utf8CharsGo fuel data = data.map Char.ofNat := by
  intro fuel
  induction fuel with
  | zero =>
    intro data hlen _
    cases data with
    | nil => rfl
    | cons b rest => simp at hlen
  | succ f ih =>
    intro data hlen h
    cases data with
    | nil => rfl
    | cons b rest =>
      have hb : b < 128 := h b (by simp)
      show (if b < 0x80 then Char.ofNat b :: utf8CharsGo f rest else _) = _
      rw [if_pos (show b < 0x80 from hb), List.map_cons,
        ih rest (by simp at hlen; omega) fun x hx => h x (by simp [hx])]

theorem utf8Chars_ascii (data : Bytes) (h : ∀ b ∈ data, b < 128) :
    utf8Chars data = data.map Char.ofNat :=
  utf8CharsGo_ascii data.length data (le_refl _) h

/-- C9 counterexample: platform-1 decoding is not a decoding of
single-byte text.  A single-byte decoding maps each byte to one character,
but the code decodes platform-1 bytes as UTF-8 (`String::from_utf8_lossy`,
ttf.rs:159): the two bytes `[0xC3, 0xA9]` decode to the one-character
string "é". -/
theorem platform1_not_single_byte :
    decodeName 1 [0xC3, 0xA9] = "é" ∧
    (decodeName 1 [0xC3, 0xA9]).length = 1 ∧ ([0xC3, 0xA9] : Bytes).length = 2 := by
  refine ⟨?_, ?_, ?_⟩ <;> decide

/-- C9 (amended): platform 1 decodes name bytes as UTF-8 with lossy
replacement — which on ASCII bytes coincides with single-byte decoding
(one character per byte) — and every other platform decodes the bytes as
big-endian UTF-16 code units; in particular platform-1 ASCII bytes for
"Arial" and big-endian UTF-16 bytes for "Arial" decode to the identical
string "Arial". -/
theorem name_decoding_rule :
    (∀ (p : Nat) (data : Bytes), p ≠ 1 →
      decodeName p data = String.mk (utf16Chars (toU16Be data))) ∧
    (∀ data : Bytes, (∀ b ∈ data, b < 128) →
      decodeName 1 data = String.mk (data.map Char.ofNat)) ∧
    decodeName 1 [65, 114, 105, 97, 108] = "Arial" ∧
    decodeName 0 [0, 65, 0, 114, 0, 105, 0, 97, 0, 108] = "Arial" := by
  refine ⟨?_, ?_, by decide, by decide⟩
  · intro p data hp
    rw [decodeName, if_neg hp]
  · intro data hdata
    rw [decodeName, if_pos rfl, utf8Chars_ascii data hdata]

/-- Witness for C9 (amended): a non-1 platform decodes UTF-16 ("B" from
`[0, 66]`), and platform 1 decodes ASCII bytes one character per byte
("Hi" from `[72, 105]`). -/
theorem name_decoding_rule_witness :
    decodeName 3 [0, 66] = "B" ∧ decodeName 1 [72, 105] = "Hi" :=
  ⟨(name_decoding_rule.1 3 [0, 66] (by decide)).trans (by decide),
    (name_decoding_rule.2.1 [72, 105] (by decide)).trans (by decide)⟩

/-! ### Packer geometry lemmas -/

theorem subR_refl (a : Rect) : subR a a := by
  unfold subR
  omega

theorem subR_trans {a b c : Rect} (h1 : subR a b) (h2 : subR b c) : subR a c := by
  unfold subR at *
  omega

theorem disjR_symm {a b : Rect} (h : disjR a b) : disjR b a := by
  unfold disjR at *
  omega

theorem disjR_mono_left {a a' b : Rect} (ha : subR a a') (h : disjR a' b) : disjR a b := by
  unfold subR at ha
  unfold disjR at *
  omega

theorem disjR_mono_right {a b b' : Rect} (hb : subR b b') (h : disjR a b') : disjR a b := by
  unfold subR at hb
  unfold disjR at *
  omega

theorem disjR_mono {a a' b b' : Rect} (ha : subR a a') (hb : subR b b')
    (h : disjR a' b') : disjR a b :=
  disjR_mono_left ha (disjR_mono_right hb h)

theorem downR_sub {L : Rect} {h : Nat} (w : Nat) (hh : h ≤ L.height) :
    subR (downR L w h) L := by
  unfold downR subR
  simp only
  omega

theorem rightR_sub {L : Rect} {w h : Nat} (hw : w ≤ L.width) (hh : h ≤ L.height) :
    subR (rightR L w h) L := by
  unfold rightR subR
  simp only
  omega

theorem itemRect_sub {L : Rect} {w h : Nat} (hw : w ≤ L.width) (hh : h ≤ L.height) :
    subR (itemRect L w h) L := by
  unfold itemRect subR
  simp only
  omega

theorem rightR_downR_disj (L : Rect) (w h : Nat) : disjR (rightR L w h) (downR L w h) := by
  unfold rightR downR disjR
  simp only
  omega

theorem itemRect_rightR_disj (L : Rect) (w h : Nat) :
    disjR (itemRect L w h) (rightR L w h) := by
  unfold itemRect rightR disjR
  simp only
  omega

theorem itemRect_downR_disj (L : Rect) (w h : Nat) :
    disjR (itemRect L w h) (downR L w h) := by
  unfold itemRect downR disjR
  simp only
  omega

/-- What a successful `find_node`/`split_node` does to the tree: the root's
box is unchanged, the found leaf `rect` fits the item, and in the list of
free leaves (search order) exactly that leaf is replaced by the two carved
children. -/
theorem findAndSplit_some : ∀ {n : Node} {w h : Nat} {n' : Node} {rect : Rect},
    findAndSplit n w h = some (n', rect) →
    region n' = region n ∧ w ≤ rect.width ∧ h ≤ rect.height ∧
    ∃ pre post, freeRects n = pre ++ rect :: post ∧
      freeRects n' = pre ++ rightR rect w h :: downR rect w h :: post := by
  intro n
  induction n with
  | free x y nw nh =>
    intro w h n' rect hf
    rw [findAndSplit] at hf
    split at hf
    · rename_i hcond
      simp only [Option.some.injEq, Prod.mk.injEq] at hf
      obtain ⟨hn', hrect⟩ := hf
      subst hn'
      subst hrect
      refine ⟨rfl, hcond.1, hcond.2, [], [], rfl, rfl⟩
    · cases hf
  | occ x y nw nh down right ihd ihr =>
    intro w h n' rect hf
    rw [findAndSplit] at hf
    cases hr : findAndSplit right w h with
    | some pr =>
      obtain ⟨r', rrect⟩ := pr
      rw [hr] at hf
      simp only [Option.some.injEq, Prod.mk.injEq] at hf
      obtain ⟨hn', hrect⟩ := hf
      subst hn'
      subst hrect
      obtain ⟨hreg, hw, hh, pre, post, hfr, hfr'⟩ := ihr hr
      refine ⟨rfl, hw, hh, pre, post ++ freeRects down, ?_, ?_⟩
      · show freeRects right ++ freeRects down = _
        rw [hfr, List.append_assoc, List.cons_append]
      · show freeRects r' ++ freeRects down = _
        rw [hfr', List.append_assoc, List.cons_append, List.cons_append]
    | none =>
      rw [hr] at hf
      cases hd : findAndSplit down w h with
      | some pd =>
        obtain ⟨d', drect⟩ := pd
        rw [hd] at hf
        simp only [Option.some.injEq, Prod.mk.injEq] at hf
        obtain ⟨hn', hrect⟩ := hf
        subst hn'
        subst hrect
        obtain ⟨hreg, hw, hh, pre, post, hfr, hfr'⟩ := ihd hd
        refine ⟨rfl, hw, hh, freeRects right ++ pre, post, ?_, ?_⟩
        · show freeRects right ++ freeRects down = _
          rw [hfr, List.append_assoc]
        · show freeRects right ++ freeRects d' = _
          rw [hfr', List.append_assoc]
      | none =>
        rw [hd] at hf
        cases hf

/-- Occupying a found node preserves the packer invariant, with the item's
effective placement added to the placed list. -/
theorem packInv_findAndSplit {root : Node} {placed : List Rect} {w h : Nat}
    {root' : Node} {rect : Rect}
    (hInv : PackInv root placed) (hf : findAndSplit root w h = some (root', rect)) :
    PackInv root' (itemRect rect w h :: placed) ∧ region root' = region root ∧
    w ≤ rect.width ∧ h ≤ rect.height ∧ subR rect (region root) := by
  obtain ⟨hreg, hw, hh, pre, post, hfr, hfr'⟩ := findAndSplit_some hf
  have hLmem : rect ∈ freeRects root := by rw [hfr]; simp
  have hLsub : subR rect (region root) := hInv.freeIn rect hLmem
  have hitem : subR (itemRect rect w h) rect := itemRect_sub hw hh
  have hrsub : subR (rightR rect w h) rect := rightR_sub hw hh
  have hdsub : subR (downR rect w h) rect := downR_sub w hh
  have hPW : (pre ++ rect :: post).Pairwise disjR := hfr ▸ hInv.freeDisj
  rw [List.pairwise_append] at hPW
  obtain ⟨hpre, hcpost, hcross⟩ := hPW
  rw [List.pairwise_cons] at hcpost
  obtain ⟨hrectpost, hpost⟩ := hcpost
  have hmemOld : ∀ f, f ∈ pre ∨ f ∈ post → f ∈ freeRects root := by
    intro f hf'
    rw [hfr]
    rcases hf' with hf' | hf' <;> simp [hf']
  have hdisjOldRect : ∀ f, f ∈ pre ∨ f ∈ post → disjR f rect := by
    intro f hf'
    rcases hf' with hf' | hf'
    · exact hcross f hf' rect (by simp)
    · exact disjR_symm (hrectpost f hf')
  refine ⟨⟨?_, ?_, ?_, ?_, ?_, ?_, ?_⟩, hreg, hw, hh, hLsub⟩
  · have hx := congrArg Rect.x hreg
    simp only [region] at hx
    rw [hx, hInv.originX]
  · have hy := congrArg Rect.y hreg
    simp only [region] at hy
    rw [hy, hInv.originY]
  · intro f hfmem
    rw [hfr'] at hfmem
    rw [hreg]
    rcases List.mem_append.mp hfmem with hf1 | hf2
    · exact hInv.freeIn f (hmemOld f (Or.inl hf1))
    · rcases List.mem_cons.mp hf2 with rfl | hf3
      · exact subR_trans hrsub hLsub
      · rcases List.mem_cons.mp hf3 with rfl | hf4
        · exact subR_trans hdsub hLsub
        · exact hInv.freeIn f (hmemOld f (Or.inr hf4))
  · intro p hp
    rw [hreg]
    rcases List.mem_cons.mp hp with rfl | hp'
    · exact subR_trans hitem hLsub
    · exact hInv.placedIn p hp'
  · rw [hfr', List.pairwise_append]
    refine ⟨hpre, ?_, ?_⟩
    · rw [List.pairwise_cons]
      refine ⟨?_, ?_⟩
      · intro c hc
        rcases List.mem_cons.mp hc with rfl | hc'
        · exact rightR_downR_disj rect w h
        · exact disjR_mono_left hrsub (hrectpost c hc')
      · rw [List.pairwise_cons]
        exact ⟨fun c hc => disjR_mono_left hdsub (hrectpost c hc), hpost⟩
    · intro a ha b hb
      rcases List.mem_cons.mp hb with rfl | hb'
      · exact disjR_mono_right hrsub (hdisjOldRect a (Or.inl ha))
      · rcases List.mem_cons.mp hb' with rfl | hb''
        · exact disjR_mono_right hdsub (hdisjOldRect a (Or.inl ha))
        · exact hcross a ha b (List.mem_cons_of_mem _ hb'')
  · intro f hfmem p hp
    rw [hfr'] at hfmem
    rcases List.mem_cons.mp hp with rfl | hp'
    · rcases List.mem_append.mp hfmem with hf1 | hf2
      · exact disjR_mono_right hitem (hdisjOldRect f (Or.inl hf1))
      · rcases List.mem_cons.mp hf2 with rfl | hf3
        · exact disjR_symm (itemRect_rightR_disj rect w h)
        · rcases List.mem_cons.mp hf3 with rfl | hf4
          · exact disjR_symm (itemRect_downR_disj rect w h)
          · exact disjR_mono_right hitem (hdisjOldRect f (Or.inr hf4))
    · rcases List.mem_append.mp hfmem with hf1 | hf2
      · exact hInv.freePlaced f (hmemOld f (Or.inl hf1)) p hp'
      · rcases List.mem_cons.mp hf2 with rfl | hf3
        · exact disjR_mono_left hrsub (hInv.freePlaced rect hLmem p hp')
        · rcases List.mem_cons.mp hf3 with rfl | hf4
          · exact disjR_mono_left hdsub (hInv.freePlaced rect hLmem p hp')
          · exact hInv.freePlaced f (hmemOld f (Or.inr hf4)) p hp'
  · rw [List.pairwise_cons]
    exact ⟨fun p hp => disjR_mono_left hitem (hInv.freePlaced rect hLmem p hp),
      hInv.placedDisj⟩

/-- The grown-to-the-right tree (occupied new root, old root below, fresh
strip to the right) satisfies the packer invariant. -/
theorem packInv_grow_right {root : Node} {placed : List Rect} (w : Nat)
    (hInv : PackInv root placed) :
    PackInv (Node.occ 0 0 (nodeW root + w) (nodeH root) root
      (Node.free (nodeW root) 0 w (nodeH root))) placed := by
  have hregion : region root = ⟨0, 0, nodeW root, nodeH root⟩ := by
    unfold region
    rw [hInv.originX, hInv.originY]
  have holdsub : subR (region root) ⟨0, 0, nodeW root + w, nodeH root⟩ := by
    rw [hregion]
    unfold subR
    simp only
    omega
  have hmem : freeRects (Node.occ 0 0 (nodeW root + w) (nodeH root) root
      (Node.free (nodeW root) 0 w (nodeH root))) =
      (⟨nodeW root, 0, w, nodeH root⟩ : Rect) :: freeRects root := rfl
  refine ⟨rfl, rfl, ?_, ?_, ?_, ?_, hInv.placedDisj⟩
  · intro f hf
    rw [hmem] at hf
    show subR f ⟨0, 0, nodeW root + w, nodeH root⟩
    rcases List.mem_cons.mp hf with rfl | hf'
    · unfold subR
      simp only
      omega
    · exact subR_trans (hInv.freeIn f hf') holdsub
  · intro p hp
    show subR p ⟨0, 0, nodeW root + w, nodeH root⟩
    exact subR_trans (hInv.placedIn p hp) holdsub
  · rw [hmem, List.pairwise_cons]
    refine ⟨?_, hInv.freeDisj⟩
    intro f hf'
    have hsubf := hInv.freeIn f hf'
    rw [hregion] at hsubf
    unfold subR at hsubf
    unfold disjR
    simp only at hsubf ⊢
    omega
  · intro f hf p hp
    rw [hmem] at hf
    rcases List.mem_cons.mp hf with rfl | hf'
    · have hsubp := hInv.placedIn p hp
      rw [hregion] at hsubp
      unfold subR at hsubp
      unfold disjR
      simp only at hsubp ⊢
      omega
    · exact hInv.freePlaced f hf' p hp

/-- The grown-downward tree (occupied new root, old root to the right,
fresh strip below) satisfies the packer invariant. -/
theorem packInv_grow_down {root : Node} {placed : List Rect} (h : Nat)
    (hInv : PackInv root placed) :
    PackInv (Node.occ 0 0 (nodeW root) (nodeH root + h)
      (Node.free 0 (nodeH root) (nodeW root) h) root) placed := by
  have hregion : region root = ⟨0, 0, nodeW root, nodeH root⟩ := by
    unfold region
    rw [hInv.originX, hInv.originY]
  have holdsub : subR (region root) ⟨0, 0, nodeW root, nodeH root + h⟩ := by
    rw [hregion]
    unfold subR
    simp only
    omega
  have hmem : freeRects (Node.occ 0 0 (nodeW root) (nodeH root + h)
      (Node.free 0 (nodeH root) (nodeW root) h) root) =
      freeRects root ++ [⟨0, nodeH root, nodeW root, h⟩] := rfl
  refine ⟨rfl, rfl, ?_, ?_, ?_, ?_, hInv.placedDisj⟩
  · intro f hf
    rw [hmem] at hf
    show subR f ⟨0, 0, nodeW root, nodeH root + h⟩
    rcases List.mem_append.mp hf with hf' | hf'
    · exact subR_trans (hInv.freeIn f hf') holdsub
    · rcases List.mem_singleton.mp hf' with rfl
      unfold subR
      simp only
      omega
  · intro p hp
    show subR p ⟨0, 0, nodeW root, nodeH root + h⟩
    exact subR_trans (hInv.placedIn p hp) holdsub
  · rw [hmem, List.pairwise_append]
    refine ⟨hInv.freeDisj, List.pairwise_singleton _ _, ?_⟩
    intro f hf' s hs
    rcases List.mem_singleton.mp hs with rfl
    have hsubf := hInv.freeIn f hf'
    rw [hregion] at hsubf
    unfold subR at hsubf
    unfold disjR
    simp only at hsubf ⊢
    omega
  · intro f hf p hp
    rw [hmem] at hf
    rcases List.mem_append.mp hf with hf' | hf'
    · exact hInv.freePlaced f hf' p hp
    · rcases List.mem_singleton.mp hf' with rfl
      have hsubp := hInv.placedIn p hp
      rw [hregion] at hsubp
      unfold subR at hsubp
      unfold disjR
      simp only at hsubp ⊢
      omega

/-- `grow_right` (when the item's height fits the canvas, which is how
`grow_node` only ever calls it) succeeds, places the item in the fresh
strip, and preserves the invariant. -/
theorem grow_right_spec {root : Node} {placed : List Rect} {w h : Nat}
    (hInv : PackInv root placed) (hcan : h ≤ nodeH root) :
    ∃ root' rect, grow_right root w h = some (root', rect) ∧
      nodeX root' = 0 ∧ nodeY root' = 0 ∧
      nodeW root' = nodeW root + w ∧ nodeH root' = nodeH root ∧
      w ≤ rect.width ∧ h ≤ rect.height ∧ subR rect (region root') ∧
      PackInv root' (itemRect rect w h :: placed) := by
  have hstrip : findAndSplit (Node.free (nodeW root) 0 w (nodeH root)) w h =
      some (Node.occ (nodeW root) 0 w (nodeH root)
          (Node.free (nodeW root) (0 + h) w (nodeH root - h))
          (Node.free (nodeW root + w) 0 (w - w) h),
        ⟨nodeW root, 0, w, nodeH root⟩) := by
    rw [findAndSplit, if_pos ⟨le_refl w, hcan⟩]
  have hf : findAndSplit (Node.occ 0 0 (nodeW root + w) (nodeH root) root
      (Node.free (nodeW root) 0 w (nodeH root))) w h =
      some (Node.occ 0 0 (nodeW root + w) (nodeH root) root
          (Node.occ (nodeW root) 0 w (nodeH root)
            (Node.free (nodeW root) (0 + h) w (nodeH root - h))
            (Node.free (nodeW root + w) 0 (w - w) h)),
        ⟨nodeW root, 0, w, nodeH root⟩) := by
    rw [findAndSplit, hstrip]
  obtain ⟨hInv', hreg, hw', hh', hsub⟩ :=
    packInv_findAndSplit (packInv_grow_right w hInv) hf
  refine ⟨Node.occ 0 0 (nodeW root + w) (nodeH root) root
      (Node.occ (nodeW root) 0 w (nodeH root)
        (Node.free (nodeW root) (0 + h) w (nodeH root - h))
        (Node.free (nodeW root + w) 0 (w - w) h)),
    ⟨nodeW root, 0, w, nodeH root⟩, ?_, rfl, rfl, rfl, rfl, hw', hh', ?_, hInv'⟩
  · rw [grow_right]
    exact hf
  · rw [hreg]
    exact hsub

/-- `grow_down` (called only after `find_node` failed on the old root and
when the item's width fits the canvas) succeeds: the re-search visits the
old root first (the `right` subtree) and fails there again, then places
the item in the fresh bottom strip; the invariant is preserved. -/
theorem grow_down_spec {root : Node} {placed : List Rect} {w h : Nat}
    (hInv : PackInv root placed) (hnone : findAndSplit root w h = none)
    (hcan : w ≤ nodeW root) :
    ∃ root' rect, grow_down root w h = some (root', rect) ∧
      nodeX root' = 0 ∧ nodeY root' = 0 ∧
      nodeW root' = nodeW root ∧ nodeH root' = nodeH root + h ∧
      w ≤ rect.width ∧ h ≤ rect.height ∧ subR rect (region root') ∧
      PackInv root' (itemRect rect w h :: placed) := by
  have hstrip : findAndSplit (Node.free 0 (nodeH root) (nodeW root) h) w h =
      some (Node.occ 0 (nodeH root) (nodeW root) h
          (Node.free 0 (nodeH root + h) (nodeW root) (h - h))
          (Node.free (0 + w) (nodeH root) (nodeW root - w) h),
        ⟨0, nodeH root, nodeW root, h⟩) := by
    rw [findAndSplit, if_pos ⟨hcan, le_refl h⟩]
  have hf : findAndSplit (Node.occ 0 0 (nodeW root) (nodeH root + h)
      (Node.free 0 (nodeH root) (nodeW root) h) root) w h =
      some (Node.occ 0 0 (nodeW root) (nodeH root + h)
          (Node.occ 0 (nodeH root) (nodeW root) h
            (Node.free 0 (nodeH root + h) (nodeW root) (h - h))
            (Node.free (0 + w) (nodeH root) (nodeW root - w) h)) root,
        ⟨0, nodeH root, nodeW root, h⟩) := by
    rw [findAndSplit, hnone, hstrip]
  obtain ⟨hInv', hreg, hw', hh', hsub⟩ :=
    packInv_findAndSplit (packInv_grow_down h hInv) hf
  refine ⟨Node.occ 0 0 (nodeW root) (nodeH root + h)
      (Node.occ 0 (nodeH root) (nodeW root) h
        (Node.free 0 (nodeH root + h) (nodeW root) (h - h))
        (Node.free (0 + w) (nodeH root) (nodeW root - w) h)) root,
    ⟨0, nodeH root, nodeW root, h⟩, ?_, rfl, rfl, rfl, rfl, hw', hh', ?_, hInv'⟩
  · rw [grow_down]
    exact hf
  · rw [hreg]
    exact hsub

/-- `Packer::fit` never hits the `grow_node` panic when the item's max
dimension is bounded by the canvas's max dimension, and it preserves the
packer invariant while only growing the canvas. -/
theorem fit_spec {root : Node} {placed : List Rect} {w h : Nat}
    (hInv : PackInv root placed) (hdim : max w h ≤ max (nodeW root) (nodeH root)) :
    ∃ root' rect, fit root w h = some (root', rect) ∧
      nodeX root' = 0 ∧ nodeY root' = 0 ∧
      nodeW root ≤ nodeW root' ∧ nodeH root ≤ nodeH root' ∧
      w ≤ rect.width ∧ h ≤ rect.height ∧ subR rect (region root') ∧
      PackInv root' (itemRect rect w h :: placed) := by
  rw [fit]
  cases hfs : findAndSplit root w h with
  | some pr =>
    obtain ⟨root', rect⟩ := pr
    obtain ⟨hInv', hreg, hw', hh', hsub⟩ := packInv_findAndSplit hInv hfs
    have hx := congrArg Rect.x hreg
    have hy := congrArg Rect.y hreg
    have hWeq := congrArg Rect.width hreg
    have hHeq := congrArg Rect.height hreg
    simp only [region] at hx hy hWeq hHeq
    refine ⟨root', rect, rfl, ?_, ?_, ?_, ?_, hw', hh', ?_, hInv'⟩
    · rw [hx, hInv.originX]
    · rw [hy, hInv.originY]
    · rw [hWeq]
    · rw [hHeq]
    · rw [hreg]
      exact hsub
  | none =>
    rw [grow_node]
    simp only
    split_ifs with h1 h2 h3 h4
    · obtain ⟨root', rect, hgr, hx, hy, hW, hH, hw', hh', hsub, hInv'⟩ :=
        grow_right_spec hInv h1.1
      exact ⟨root', rect, hgr, hx, hy, by omega, by omega, hw', hh', hsub, hInv'⟩
    · obtain ⟨root', rect, hgr, hx, hy, hW, hH, hw', hh', hsub, hInv'⟩ :=
        grow_down_spec hInv hfs h2.1
      exact ⟨root', rect, hgr, hx, hy, by omega, by omega, hw', hh', hsub, hInv'⟩
    · obtain ⟨root', rect, hgr, hx, hy, hW, hH, hw', hh', hsub, hInv'⟩ :=
        grow_right_spec hInv h3
      exact ⟨root', rect, hgr, hx, hy, by omega, by omega, hw', hh', hsub, hInv'⟩
    · obtain ⟨root', rect, hgr, hx, hy, hW, hH, hw', hh', hsub, hInv'⟩ :=
        grow_down_spec hInv hfs h4
      exact ⟨root', rect, hgr, hx, hy, by omega, by omega, hw', hh', hsub, hInv'⟩
    · exfalso
      omega

/-- The packing loop: if every remaining item's max dimension is bounded by
the canvas's max dimension, the loop completes (no panic), the canvas only
grows, each item gets a recorded rectangle at least its own size lying
inside the final canvas, and the item-sized placements together with the
previously placed ones satisfy the invariant on the final tree. -/
theorem bin_pack_loop_spec {K : Type} :
    ∀ (items : List (K × Nat × Nat)) (root : Node) (placed : List Rect),
    PackInv root placed →
    (∀ it ∈ items, maxDim it.2 ≤ max (nodeW root) (nodeH root)) →
    ∃ root' out, bin_pack_loop root items = some (root', out) ∧
      nodeX root' = 0 ∧ nodeY root' = 0 ∧
      nodeW root ≤ nodeW root' ∧ nodeH root ≤ nodeH root' ∧
      List.Forall₂ (placedOk root') items out ∧
      PackInv root' ((itemRects items out).reverse ++ placed) := by
  intro items
  induction items with
  | nil =>
    intro root placed hInv _
    refine ⟨root, [], rfl, hInv.originX, hInv.originY, le_refl _, le_refl _,
      List.Forall₂.nil, ?_⟩
    simpa [itemRects] using hInv
  | cons it rest ih =>
    intro root placed hInv hdims
    obtain ⟨k, w, h⟩ := it
    have hdim0 : max w h ≤ max (nodeW root) (nodeH root) := hdims (k, w, h) (by simp)
    obtain ⟨root1, rect, hfit, hx1, hy1, hW1, hH1, hw', hh', hsub1, hInv1⟩ :=
      fit_spec hInv hdim0
    have hdims1 : ∀ it' ∈ rest, maxDim it'.2 ≤ max (nodeW root1) (nodeH root1) := by
      intro it' hit'
      have := hdims it' (by simp [hit'])
      omega
    obtain ⟨rootF, out, hloop, hxF, hyF, hWF, hHF, hF2, hInvF⟩ :=
      ih root1 (itemRect rect w h :: placed) hInv1 hdims1
    have hsub1F : subR (region root1) (region rootF) := by
      unfold region subR
      simp only
      omega
    refine ⟨rootF, (k, rect) :: out, ?_, hxF, hyF, by omega, by omega, ?_, ?_⟩
    · simp only [bin_pack_loop, hfit, hloop]
    · exact List.Forall₂.cons
        ⟨rfl, hw', hh', subR_trans hsub1 hsub1F⟩ hF2
    · have hlist : (itemRects ((k, w, h) :: rest) ((k, rect) :: out)).reverse ++ placed =
          (itemRects rest out).reverse ++ (itemRect rect w h :: placed) := by
        simp [itemRects, List.reverse_cons, List.append_assoc]
      rw [hlist]
      exact hInvF

/-! ### Sorting lemmas -/

theorem insertByMaxDim_perm {K : Type} (it : K × Nat × Nat) :
    ∀ l : List (K × Nat × Nat), (insertByMaxDim it l).Perm (it :: l) := by
  intro l
  induction l with
  | nil => exact List.Perm.refl _
  | cons it' rest ih =>
    rw [insertByMaxDim]
    split
    · exact (List.Perm.cons it' ih).trans (List.Perm.swap it it' rest)
    · exact List.Perm.refl _

theorem sortByMaxDimDesc_perm {K : Type} :
    ∀ l : List (K × Nat × Nat), (sortByMaxDimDesc l).Perm l := by
  intro l
  induction l with
  | nil => exact List.Perm.refl _
  | cons it rest ih =>
    exact (insertByMaxDim_perm it (sortByMaxDimDesc rest)).trans (ih.cons it)

theorem insertByMaxDim_pairwise {K : Type} (it : K × Nat × Nat)
    (l : List (K × Nat × Nat))
    (hl : l.Pairwise (fun a b => maxDim b.2 ≤ maxDim a.2)) :
    (insertByMaxDim it l).Pairwise (fun a b => maxDim b.2 ≤ maxDim a.2) := by
  induction l with
  | nil => exact List.pairwise_singleton _ _
  | cons it' rest ih =>
    rw [List.pairwise_cons] at hl
    obtain ⟨hhead, hrest⟩ := hl
    rw [insertByMaxDim]
    split
    · rename_i hlt
      rw [List.pairwise_cons]
      refine ⟨?_, ih hrest⟩
      intro b hb
      have hbmem := (insertByMaxDim_perm it rest).mem_iff.mp hb
      rcases List.mem_cons.mp hbmem with rfl | hbmem'
      · omega
      · exact hhead b hbmem'
    · rename_i hge
      rw [List.pairwise_cons]
      refine ⟨?_, List.pairwise_cons.mpr ⟨hhead, hrest⟩⟩
      intro b hb
      rcases List.mem_cons.mp hb with rfl | hbmem'
      · omega
      · have := hhead b hbmem'
        omega

theorem sortByMaxDimDesc_pairwise {K : Type} :
    ∀ l : List (K × Nat × Nat),
    (sortByMaxDimDesc l).Pairwise (fun a b => maxDim b.2 ≤ maxDim a.2) := by
  intro l
  induction l with
  | nil => exact List.Pairwise.nil
  | cons it rest ih => exact insertByMaxDim_pairwise it _ ih

/-! ### Forall₂ helpers -/

theorem forall2_map_eq {α β γ : Type} {R : α → β → Prop} (f : α → γ) (g : β → γ)
    {l1 : List α} {l2 : List β} (h : List.Forall₂ R l1 l2)
    (hR : ∀ a b, R a b → g b = f a) : l2.map g = l1.map f := by
  induction h with
  | nil => rfl
  | cons hab _ ihr => simp [hR _ _ hab, ihr]

theorem forall2_mem_right {α β : Type} {R : α → β → Prop}
    {l1 : List α} {l2 : List β} (h : List.Forall₂ R l1 l2) {b : β} (hb : b ∈ l2) :
    ∃ a, a ∈ l1 ∧ R a b := by
  induction h with
  | nil => cases hb
  | cons hab hrest ihr =>
    rcases List.mem_cons.mp hb with rfl | hb'
    · exact ⟨_, by simp, hab⟩
    · obtain ⟨a, ha, hR⟩ := ihr hb'
      exact ⟨a, by simp [ha], hR⟩

/-! ### The master packer theorem -/

/-- `bin_pack` (at the `pack_glyphs` instantiation) always succeeds: the
sort guarantees the grow panic is unreachable.  Each sorted item's recorded
rectangle has the same key, is at least the item's size, and fits in the
final canvas; the item-sized placements are pairwise disjoint. -/
theorem bin_pack_spec {K : Type} (items : List (K × Nat × Nat)) :
    ∃ res : PackResult K, bin_pack items = some res ∧
      List.Forall₂ (fun (it : K × Nat × Nat) (pl : K × Rect) =>
          pl.1 = it.1 ∧ it.2.1 ≤ pl.2.width ∧ it.2.2 ≤ pl.2.height ∧
          pl.2.x + pl.2.width ≤ res.width ∧ pl.2.y + pl.2.height ≤ res.height)
        (sortByMaxDimDesc items) res.items ∧
      (itemRects (sortByMaxDimDesc items) res.items).Pairwise disjR := by
  cases hs : sortByMaxDimDesc items with
  | nil =>
    refine ⟨⟨0, 0, []⟩, ?_, List.Forall₂.nil, by simp [itemRects]⟩
    simp only [bin_pack, hs, bin_pack_loop, nodeW, nodeH]
  | cons it0 rest =>
    obtain ⟨k0, w0, h0⟩ := it0
    have hInv0 : PackInv (Node.free 0 0 w0 h0) [] := by
      refine ⟨rfl, rfl, ?_, by simp, ?_, by simp, List.Pairwise.nil⟩
      · intro f hf
        rcases List.mem_singleton.mp hf with rfl
        exact subR_refl _
      · exact List.pairwise_singleton _ _
    have hsorted := sortByMaxDimDesc_pairwise items
    rw [hs, List.pairwise_cons] at hsorted
    have hdims : ∀ it ∈ (k0, w0, h0) :: rest,
        maxDim it.2 ≤ max (nodeW (Node.free 0 0 w0 h0)) (nodeH (Node.free 0 0 w0 h0)) := by
      intro it hit
      rcases List.mem_cons.mp hit with rfl | hit'
      · exact le_refl _
      · exact hsorted.1 it hit'
    obtain ⟨rootF, out, hloop, hxF, hyF, hWF, hHF, hF2, hInvF⟩ :=
      bin_pack_loop_spec ((k0, w0, h0) :: rest) (Node.free 0 0 w0 h0) [] hInv0 hdims
    have hregF : region rootF = ⟨0, 0, nodeW rootF, nodeH rootF⟩ := by
      unfold region
      rw [hxF, hyF]
    refine ⟨⟨nodeW rootF, nodeH rootF, out⟩, ?_, ?_, ?_⟩
    · simp only [bin_pack, hs, hloop]
    · refine hF2.imp ?_
      intro a b hab
      obtain ⟨hk, hw, hh, hsub⟩ := hab
      rw [hregF] at hsub
      unfold subR at hsub
      simp only at hsub
      refine ⟨hk, hw, hh, ?_, ?_⟩
      · show b.2.x + b.2.width ≤ nodeW rootF
        omega
      · show b.2.y + b.2.height ≤ nodeH rootF
        omega
    · have hpw := hInvF.placedDisj
      rw [List.append_nil, List.pairwise_reverse] at hpw
      exact hpw.imp fun hab => disjR_symm hab

/-! ### Packer claims -/

/-- C8: with the ordering `pack_glyphs` uses (descending max dimension,
which `bin_pack` applies internally), the packer's "no fitting growth
direction" fatal error is unreachable: for every item list, `bin_pack`
completes without panicking — in every growth step at least one direction
is permissible and the fresh strip always admits the item. -/
theorem bin_pack_never_panics {K : Type} (items : List (K × Nat × Nat)) :
    ∃ res : PackResult K, bin_pack items = some res := by
  obtain ⟨res, hrun, _, _⟩ := bin_pack_spec items
  exact ⟨res, hrun⟩

/-- C2 counterexample: the recorded rectangle is not the item's exact size.
Packing a 4×4 item and then a 2×2 item records the second item at the full
box of the node it was placed into — `⟨4, 0, 2, 4⟩`, of height 4, not the
item's height 2 (`Packer::fit` returns `node.width`/`node.height`,
pack.rs:83–89). -/
theorem recorded_rect_exceeds_item :
    bin_pack [((0 : Nat), (4, 4)), (1, (2, 2))] =
      some ⟨6, 4, [(0, ⟨0, 0, 4, 4⟩), (1, ⟨4, 0, 2, 4⟩)]⟩ ∧
    (Rect.mk 4 0 2 4).height ≠ 2 := by
  refine ⟨by decide, by decide⟩

/-- C2 (amended): every recorded rectangle has the node's original position
as its upper-left corner and the node's full width and height as its
dimensions, which are at least — but not always equal to — the item's
width and height. -/
theorem recorded_rect_bounds {K : Type} (items : List (K × Nat × Nat)) :
    ∃ res : PackResult K, bin_pack items = some res ∧
      List.Forall₂ (fun (it : K × Nat × Nat) (pl : K × Rect) =>
          pl.1 = it.1 ∧ it.2.1 ≤ pl.2.width ∧ it.2.2 ≤ pl.2.height)
        (sortByMaxDimDesc items) res.items := by
  obtain ⟨res, hrun, hF2, _⟩ := bin_pack_spec items
  exact ⟨res, hrun, hF2.imp fun a b hab => ⟨hab.1, hab.2.1, hab.2.2.1⟩⟩

/-- C1 counterexample: recorded rectangles can overlap.  Packing items of
sizes 4×4, 2×2, 2×2 (positive dimensions, distinct keys) records the last
two items at `⟨4, 0, 2, 4⟩` and `⟨4, 2, 2, 2⟩`, which overlap (the second
lies inside the first's recorded box, because recorded rectangles carry
the full dimensions of the node that was occupied, and the node's `down`
child is carved inside that box). -/
theorem packed_rects_overlap :
    bin_pack [((0 : Nat), (4, 4)), (1, (2, 2)), (2, (2, 2))] =
      some ⟨6, 4, [(0, ⟨0, 0, 4, 4⟩), (1, ⟨4, 0, 2, 4⟩), (2, ⟨4, 2, 2, 2⟩)]⟩ ∧
    ¬ disjR ⟨4, 0, 2, 4⟩ ⟨4, 2, 2, 2⟩ ∧
    (([((0 : Nat), (4, 4)), (1, (2, 2)), (2, (2, 2))] :
      List (Nat × Nat × Nat)).map Prod.fst).Nodup ∧
    ([((0 : Nat), (4, 4)), (1, (2, 2)), (2, (2, 2))] :
      List (Nat × Nat × Nat)).all (fun it => 0 < it.2.1 && 0 < it.2.2) = true := by
  refine ⟨by decide, by decide, by decide, by decide⟩

/-- C1 (amended): for items with positive dimensions and pairwise-distinct
keys, `bin_pack` places every item exactly once (the result's keys are a
permutation of the input keys, still without duplicates), every recorded
rectangle lies inside the returned canvas, and while the recorded
rectangles themselves may overlap, the item-sized placements — each
recorded position taken with its own item's width and height — are
pairwise disjoint. -/
theorem bin_pack_placements {K : Type} (items : List (K × Nat × Nat))
    (hkeys : (items.map Prod.fst).Nodup)
    (hpos : ∀ it ∈ items, 0 < it.2.1 ∧ 0 < it.2.2) :
    ∃ res : PackResult K, bin_pack items = some res ∧
      (res.items.map Prod.fst).Perm (items.map Prod.fst) ∧
      (res.items.map Prod.fst).Nodup ∧
      (∀ pl ∈ res.items,
        pl.2.x + pl.2.width ≤ res.width ∧ pl.2.y + pl.2.height ≤ res.height) ∧
      (itemRects (sortByMaxDimDesc items) res.items).Pairwise disjR := by
  obtain ⟨res, hrun, hF2, hdisj⟩ := bin_pack_spec items
  have hmapeq : res.items.map Prod.fst = (sortByMaxDimDesc items).map Prod.fst :=
    forall2_map_eq Prod.fst Prod.fst hF2 fun a b hab => hab.1
  have hperm : (res.items.map Prod.fst).Perm (items.map Prod.fst) := by
    rw [hmapeq]
    exact (sortByMaxDimDesc_perm items).map Prod.fst
  refine ⟨res, hrun, hperm, hperm.nodup_iff.mpr hkeys, ?_, hdisj⟩
  intro pl hpl
  obtain ⟨a, ha, hR⟩ := forall2_mem_right hF2 hpl
  exact ⟨hR.2.2.2.1, hR.2.2.2.2⟩

/-- Witness for C1 (amended) at the three items 4×4, 2×2, 2×2 with keys
0, 1, 2. -/
theorem bin_pack_placements_witness :
    (([((0 : Nat), (4, 4)), (1, (2, 2)), (2, (2, 2))] :
      List (Nat × Nat × Nat)).map Prod.fst).Nodup ∧
    (∀ it ∈ ([((0 : Nat), (4, 4)), (1, (2, 2)), (2, (2, 2))] :
      List (Nat × Nat × Nat)), 0 < it.2.1 ∧ 0 < it.2.2) ∧
    (∃ res : PackResult Nat,
      bin_pack [((0 : Nat), (4, 4)), (1, (2, 2)), (2, (2, 2))] = some res ∧
      (res.items.map Prod.fst).Perm
        (([((0 : Nat), (4, 4)), (1, (2, 2)), (2, (2, 2))] :
          List (Nat × Nat × Nat)).map Prod.fst) ∧
      (res.items.map Prod.fst).Nodup ∧
      (∀ pl ∈ res.items,
        pl.2.x + pl.2.width ≤ res.width ∧ pl.2.y + pl.2.height ≤ res.height) ∧
      (itemRects (sortByMaxDimDesc [((0 : Nat), (4, 4)), (1, (2, 2)), (2, (2, 2))])
        res.items).Pairwise disjR) :=
  ⟨by decide, by decide, bin_pack_placements _ (by decide) (by decide)⟩
